import Mathlib

set_option maxRecDepth 8000

/-! Shallow embedding of the VSTFS TFVC integration layer (src/src/tfvc.ts).

The embedding covers the three text parsers (`parsePending`,
`parsePendingDetailed`, `parseHistory`), the path normalizer
(`toLocalPath`), the authentication-retry executor (`execWithAuthRetry`),
and the dispatch logic of `pendingChanges` and `changeset`.

Conventions of the embedding:
* JS strings are represented as `String`/`List Char`; all character-level
  work happens on `List Char` so every definition reduces by structural
  recursion.
* The JS regexes of the source are realized by a small backtracking
  matcher (`K` continuations below) with the exact NFA backtracking order
  of ECMAScript regexes for the pattern shapes that occur in the source:
  lazy repetition tries shortest first, greedy longest first, alternation
  is tried left to right, search is leftmost-first.
* Character classes are modelled over the ASCII range the TF.exe output
  uses (`\s`, `\w`, `[A-Za-z]`, `\d`, `.`); Unicode-only whitespace is not
  modelled.  Case-insensitive matching lowers with ASCII `Char.toLower`.
* Line splitting such as `split(/\r?\n/)` is modelled exactly.  The
  multiline regexes of `parseHistory` are modelled on whole block strings:
  `^` (with `/m`) matches at the start and after any terminator (LF, CR,
  and between the CR and LF of a CRLF), `\s` includes the terminators
  themselves so `\s*` can walk across line breaks, and `$` matches before
  a terminator (with `/m`) or at the end of the string (always).
* `new Date(...)` parsing is environment-dependent in JS; the `date`
  field keeps the raw matched text.
* Node's win32 `path.join` is modelled for the drive-letter/relative
  shapes this extension produces (`pathJoinL`). -/

namespace VSTFS

/-- ECMAScript `\s` on the ASCII range. -/
def isWsC (c : Char) : Bool :=
  c == ' ' || c == '\t' || c == '\n' || c == '\r' || c == '\x0b' || c == '\x0c'

/-- ECMAScript regex `.` : any character except a line terminator. -/
def isDotC (c : Char) : Bool := !(c == '\n' || c == '\r')

/-- Regex class `[A-Za-z]`. -/
def isAsciiAlphaC (c : Char) : Bool :=
  ('A' ≤ c && c ≤ 'Z') || ('a' ≤ c && c ≤ 'z')

/-- ECMAScript `\w` (word character, for `\b` boundaries). -/
def isWordC (c : Char) : Bool := isAsciiAlphaC c || c.isDigit || c == '_'

/-- Regex class `[A-Za-z, ]` of the change column in `tryParseRow`. -/
def isChangeColC (c : Char) : Bool := isAsciiAlphaC c || c == ',' || c == ' '

def toLowerL (l : List Char) : List Char := l.map Char.toLower

def ltrimL (l : List Char) : List Char := l.dropWhile (fun c => isWsC c)

def rtrimL (l : List Char) : List Char := (l.reverse.dropWhile (fun c => isWsC c)).reverse

/-- JS `String.prototype.trim`. -/
def trimL (l : List Char) : List Char := ltrimL (rtrimL l)

def isPrefixL : List Char → List Char → Bool
  | [], _ => true
  | _ :: _, [] => false
  | a :: as, b :: bs => a == b && isPrefixL as bs

/-- Case-insensitive prefix test (regex `/i`). -/
def isPrefixCI (pat s : List Char) : Bool := isPrefixL (toLowerL pat) (toLowerL s)

def containsL (pat : List Char) : List Char → Bool
  | [] => isPrefixL pat []
  | c :: s => isPrefixL pat (c :: s) || containsL pat s

/-- Two consecutive whitespace characters somewhere (`/\s{2,}/.test`). -/
def hasDblWsL : List Char → Bool
  | c1 :: c2 :: rest => (isWsC c1 && isWsC c2) || hasDblWsL (c2 :: rest)
  | _ => false

/-- Split at every LF. -/
def splitNL : List Char → List (List Char)
  | [] => [[]]
  | c :: rest =>
    if c == '\n' then [] :: splitNL rest
    else
      match splitNL rest with
      | [] => [[c]]
      | l :: ls => (c :: l) :: ls

/-- Drop one trailing CR (the CR of a CRLF pair once the LF has been
split away). -/
def dropTrailCR (l : List Char) : List Char :=
  match l.getLast? with
  | some '\r' => l.dropLast
  | _ => l

def mapButLast (f : List Char → List Char) : List (List Char) → List (List Char)
  | [] => []
  | [x] => [x]
  | x :: xs => f x :: mapButLast f xs

/-- JS `split(/\r?\n/)`: every LF splits, consuming a CR immediately
before it; a lone CR (in particular one not followed by LF, or at the
very end of the input) stays inside its line. -/
def splitRNL (s : List Char) : List (List Char) := mapButLast dropTrailCR (splitNL s)

/-! ## The backtracking matcher

A pattern is a continuation `K`; combinators chain tokens.  The first
argument of a `K` is the character just before the current position (for
`\b`), the second the remaining input. -/

abbrev Caps := List (Nat × List Char)

abbrev K := Option Char → List Char → Option Caps

def addCap (cap : Option Nat) (txt : List Char) (caps : Caps) : Caps :=
  match cap with
  | some i => (i, txt) :: caps
  | none => caps

def capGet (caps : Caps) (i : Nat) : List Char :=
  match caps.find? (fun p => p.1 == i) with
  | some p => p.2
  | none => []

def lastPrev (l : List Char) (prev : Option Char) : Option Char :=
  match l.getLast? with
  | some c => some c
  | none => prev

def boundaryAt (prev : Option Char) (s : List Char) : Bool :=
  (match prev with | some c => isWordC c | none => false) !=
  (match s with | c :: _ => isWordC c | [] => false)

/-- Pattern end (whatever input remains is ignored, as for an unanchored
JS match). -/
def kEnd : K := fun _ _ => some []

/-- `$` (no multiline flag: end of the matched line/string). -/
def kEos (k : K) : K := fun prev s =>
  match s with
  | [] => k prev []
  | _ :: _ => none

def kLit (ls : List Char) (k : K) : K := fun prev s =>
  if isPrefixL ls s then k (lastPrev ls prev) (s.drop ls.length) else none

/-- A single character of class `cl` (e.g. the leading `.` of `/^.:\\/`). -/
def kOne (cl : Char → Bool) (cap : Option Nat) (k : K) : K := fun _ s =>
  match s with
  | [] => none
  | c :: s1 => if cl c then (k (some c) s1).map (addCap cap [c]) else none

/-- `\b`. -/
def kBound (k : K) : K := fun prev s =>
  if boundaryAt prev s then k prev s else none

/-- Case-insensitive word alternation `(w1|w2|…)`, tried left to right,
capturing the actual (original-case) matched text. -/
def altTry (k : K) (cap : Option Nat) (ws : List (List Char)) (prev : Option Char)
    (s : List Char) : Option Caps :=
  match ws with
  | [] => none
  | w :: rest =>
    if isPrefixCI w s then
      let actual := s.take w.length
      match (k (lastPrev actual prev) (s.drop w.length)).map (addCap cap actual) with
      | some caps => some caps
      | none => altTry k cap rest prev s
    else altTry k cap rest prev s

def kAlt (ws : List (List Char)) (cap : Option Nat) (k : K) : K := fun prev s =>
  altTry k cap ws prev s

/-- The mandatory first `n` repetitions of a class. -/
def takeMin (cl : Char → Bool) : Nat → Option Char → List Char →
    Option (List Char × Option Char × List Char)
  | 0, prev, s => some ([], prev, s)
  | _ + 1, _, [] => none
  | n + 1, prev, c :: s =>
    if cl c then
      match takeMin cl n (some c) s with
      | some (t, p, r) => some (c :: t, p, r)
      | none => none
    else none

/-- Lazy star over class `cl`: try the continuation first, extend on
failure (ECMAScript lazy repetition order). -/
def clsLazy (cl : Char → Bool) (k : K) : Option Char → List Char →
    Option (List Char × Caps)
  | prev, [] =>
    match k prev [] with
    | some caps => some ([], caps)
    | none => none
  | prev, c :: s1 =>
    match k prev (c :: s1) with
    | some caps => some ([], caps)
    | none =>
      if cl c then
        match clsLazy cl k (some c) s1 with
        | some (t, caps) => some (c :: t, caps)
        | none => none
      else none

/-- Greedy star over class `cl`: extend as far as possible first,
backtrack on failure (ECMAScript greedy repetition order). -/
def clsGreedy (cl : Char → Bool) (k : K) : Option Char → List Char →
    Option (List Char × Caps)
  | prev, [] =>
    match k prev [] with
    | some caps => some ([], caps)
    | none => none
  | prev, c :: s1 =>
    if cl c then
      match clsGreedy cl k (some c) s1 with
      | some (t, caps) => some (c :: t, caps)
      | none =>
        match k prev (c :: s1) with
        | some caps => some ([], caps)
        | none => none
    else
      match k prev (c :: s1) with
      | some caps => some ([], caps)
      | none => none

/-- Class repetition `{minRep,}`, lazy or greedy. -/
def kCls (cl : Char → Bool) (minRep : Nat) (lazyQ : Bool) (cap : Option Nat) (k : K) : K :=
  fun prev s =>
    match takeMin cl minRep prev s with
    | none => none
    | some (pre, p1, s1) =>
      match (if lazyQ then clsLazy cl k p1 s1 else clsGreedy cl k p1 s1) with
      | some (t, caps) => some (addCap cap (pre ++ t) caps)
      | none => none

/-- Unanchored leftmost search (`String.prototype.match` without `^`). -/
def searchK (k : K) : Option Char → List Char → Option Caps
  | prev, [] =>
    match k prev [] with
    | some caps => some caps
    | none => none
  | prev, c :: s1 =>
    match k prev (c :: s1) with
    | some caps => some caps
    | none => searchK k (some c) s1

/-! ## Data model (src/src/tfvc.ts interfaces)

`TFPendingItem.action` is a `String` because the TS "enum" is only a type
annotation: the runtime value is whatever string the regex captured (the
source casts, so `"branch"` flows through despite not being in the
annotation). -/

structure TFPendingItem where
  file : String
  action : String
deriving DecidableEq, Repr

structure TFFileChange where
  path : String
  change : String
deriving DecidableEq, Repr

structure TFHistoryItem where
  changesetId : Nat
  author : String
  date : String
  comment : String
  files : List TFFileChange
deriving DecidableEq, Repr

structure VstfsConfig where
  serverUrl : String
  project : String
  workspace : String
  tfPath : String
  root : String
  serverPath : String
deriving DecidableEq, Repr

/-! ## parsePending (src/src/tfvc.ts lines 534-645) -/

/-- Alternation `(add|edit|delete|rename|merge|branch)` in source order. -/
def actionWords : List (List Char) :=
  ["add".data, "edit".data, "delete".data, "rename".data, "merge".data, "branch".data]

/-- `/^(.+?)\s{2,}([A-Za-z, ]+?)\s{2,}(.+)$/` -/
def t1K : K :=
  kCls isDotC 1 true (some 1) (kCls isWsC 2 false none (kCls isChangeColC 1 true (some 2)
    (kCls isWsC 2 false none (kCls isDotC 1 false (some 3) (kEos kEnd)))))

/-- `/^(.+?)\s{1,}([A-Za-z, ]+?)\s{2,}(.+)$/` -/
def t1bK : K :=
  kCls isDotC 1 true (some 1) (kCls isWsC 1 false none (kCls isChangeColC 1 true (some 2)
    (kCls isWsC 2 false none (kCls isDotC 1 false (some 3) (kEos kEnd)))))

/-- `/^(add|edit|delete|rename|merge|branch)\s+(.+)$/i` -/
def t2K : K :=
  kAlt actionWords (some 1) (kCls isWsC 1 false none (kCls isDotC 1 false (some 2) (kEos kEnd)))

/-- `/^(\$\/.*?);\s*(add|edit|delete|rename|merge|branch)\s*$/i`
(group 1 is `"$/"` followed by the lazy capture). -/
def t3K : K :=
  kLit "$/".data (kCls isDotC 0 true (some 1) (kLit ";".data (kCls isWsC 0 false none
    (kAlt actionWords (some 2) (kCls isWsC 0 false none (kEos kEnd))))))

/-- `/^(.:\\[^-]+?)\s*-\s+(add|edit|delete|rename|merge|branch)\s*$/i`
(group 1 is the single dot-char, `":\\"`, then the `[^-]+?` capture). -/
def t4K : K :=
  kOne isDotC (some 1) (kLit ":\\".data (kCls (fun c => !(c == '-')) 1 true (some 2)
    (kCls isWsC 0 false none (kLit "-".data (kCls isWsC 1 false none
      (kAlt actionWords (some 3) (kCls isWsC 0 false none (kEos kEnd))))))))

/-- `/\b(add|edit|delete|rename|merge|branch)\b/i` (searched). -/
def actionFindK : K := kBound (kAlt actionWords (some 1) (kBound kEnd))

/-- `/\b(add|edit|delete|rename|merge|branch)\b\s+([A-Za-z]:\\.+)$/i`
(group 2 is the letter, `":\\"`, then the final capture). -/
def pgK : K :=
  kBound (kAlt actionWords (some 1) (kBound (kCls isWsC 1 false none
    (kOne isAsciiAlphaC (some 2) (kLit ":\\".data (kCls isDotC 1 false (some 3) (kEos kEnd)))))))

/-- `/^[A-Za-z]:\\/.test` -/
def isDriveL : List Char → Bool
  | a :: b :: c :: _ => isAsciiAlphaC a && b == ':' && c == '\\'
  | _ => false

def replBackFwd (l : List Char) : List Char := l.map (fun c => if c == '\\' then '/' else c)

/-- `tryParseRow` (src/src/tfvc.ts lines 546-582), with the enclosing
`currentServerFolder` passed explicitly. -/
def tryParseRow (folder : Option (List Char)) (row : List Char) : Option TFPendingItem :=
  let trimmed := trimL row
  match (match t1K none trimmed with
         | some caps => some caps
         | none => t1bK none trimmed) with
  | some caps =>
    let nameCol := trimL (capGet caps 1)
    let changeCol := trimL (capGet caps 2)
    let localCol := trimL (capGet caps 3)
    let actionTxt :=
      match searchK actionFindK none changeCol with
      | some acaps => capGet acaps 1
      | none => "edit".data
    let fileTxt :=
      if isDriveL localCol then localCol
      else
        match folder with
        | some f => replBackFwd f ++ '/' :: nameCol
        | none => nameCol
    some ⟨String.mk fileTxt, String.mk (toLowerL actionTxt)⟩
  | none =>
    match t2K none trimmed with
    | some caps =>
      some ⟨String.mk (trimL (capGet caps 2)), String.mk (toLowerL (capGet caps 1))⟩
    | none =>
      match t3K none trimmed with
      | some caps =>
        some ⟨String.mk (trimL ("$/".data ++ capGet caps 1)), String.mk (toLowerL (capGet caps 2))⟩
      | none =>
        match t4K none trimmed with
        | some caps =>
          some ⟨String.mk (trimL (capGet caps 1 ++ ':' :: '\\' :: capGet caps 2)),
                String.mk (toLowerL (capGet caps 3))⟩
        | none => none

/-- `/^File\s+name\s+Change\s+Local\s+path/i.test` -/
def eatCI (w : List Char) (s : List Char) : Option (List Char) :=
  if isPrefixCI w s then some (s.drop w.length) else none

def eatWs1 (s : List Char) : Option (List Char) :=
  match s with
  | c :: rest => if isWsC c then some (rest.dropWhile (fun x => isWsC x)) else none
  | [] => none

def headerLineTest (l : List Char) : Bool :=
  (do
    let s1 ← eatCI "file".data l
    let s2 ← eatWs1 s1
    let s3 ← eatCI "name".data s2
    let s4 ← eatWs1 s3
    let s5 ← eatCI "change".data s4
    let s6 ← eatWs1 s5
    let s7 ← eatCI "local".data s6
    let s8 ← eatWs1 s7
    let _ ← eatCI "path".data s8
    pure ()).isSome

/-- `/^There are no pending changes\.?$/i.test` -/
def noPendingTest (l : List Char) : Bool :=
  let t := toLowerL l
  t == "there are no pending changes".data || t == "there are no pending changes.".data

/-- `/^(Collection|Workspace|User):/i.test` -/
def colWsUserTest (l : List Char) : Bool :=
  isPrefixCI "collection:".data l || isPrefixCI "workspace:".data l ||
  isPrefixCI "user:".data l

def extWords : List (List Char) :=
  ["cs".data, "asset".data, "mat".data, "png".data, "jpg".data, "prefab".data, "meta".data]

/-- `/\.(cs|asset|mat|png|jpg|prefab|meta)$/i.test(line.replace(/\.\.\.$/, ""))` -/
def extTest (l : List Char) : Bool :=
  let base := if isPrefixL "...".data l.reverse then (l.reverse.drop 3).reverse else l
  extWords.any (fun e => isPrefixCI ('.' :: e).reverse base.reverse)

/-- Loop state of `parsePending`; `log` mirrors the `console.log` stream
(the only effect the function performs). -/
structure PPState where
  items : List TFPendingItem
  folder : Option (List Char)
  buffer : List Char
  frag : Option (List Char)
  log : List String
deriving Repr

def dropLogMsg (buffer : List Char) : String :=
  String.mk ("VSTFS: Dropping oversized pending row buffer: ".data ++
    buffer.take 120 ++ "...".data)

/-- One iteration of the `for (const raw of lines)` loop of `parsePending`. -/
def ppStep (st : PPState) (raw : List Char) : PPState :=
  let line := trimL raw
  if isPrefixL "---".data line then st
  else if headerLineTest line then st
  else if noPendingTest line then st
  else if colWsUserTest line then st
  else if isPrefixL "$/".data line && !hasDblWsL line then
    { st with folder := some line, buffer := [], frag := none }
  else if !hasDblWsL line && extTest line then
    { st with frag := some line }
  else
    let gRes : Option Caps :=
      match st.frag with
      | some _ => searchK pgK none line
      | none => none
    match gRes with
    | some caps =>
      { st with
        items := st.items ++
          [⟨String.mk (trimL (capGet caps 2 ++ ':' :: '\\' :: capGet caps 3)),
            String.mk (toLowerL (capGet caps 1))⟩],
        frag := none }
    | none =>
      match tryParseRow st.folder line with
      | some it => { st with items := st.items ++ [it], buffer := [], frag := none }
      | none =>
        let buf := if st.buffer.isEmpty then line else st.buffer ++ ' ' :: line
        match tryParseRow st.folder buf with
        | some it => { st with items := st.items ++ [it], buffer := [], frag := none }
        | none =>
          if buf.length > 500 then
            { st with buffer := [], frag := none, log := st.log ++ [dropLogMsg buf] }
          else
            { st with buffer := buf }

/-- The line preprocessing of `parsePending`: strip NULs, strip trailing
whitespace, drop blank lines. -/
def prepLines (stdout : List Char) : List (List Char) :=
  ((splitRNL stdout).map (fun l => rtrimL (l.filter (fun c => !(c == '\x00'))))).filter
    (fun l => !l.isEmpty)

def ppInit (w : List String) : PPState := ⟨[], none, [], none, w⟩

/-- `parsePending` run against an ambient console stream `w`. -/
def ppRunFrom (w : List String) (stdout : String) : PPState :=
  (prepLines stdout.data).foldl ppStep (ppInit w)

def parsePending (stdout : String) : List TFPendingItem := (ppRunFrom [] stdout).items

/-! ## parsePendingDetailed (src/src/tfvc.ts lines 501-532) -/

/-- `(add|edit|delete|rename|merge|branch)\b` of the
`/^change:\s*(…)\b/i` match; returns the (lowercase) word. -/
def detChangeWord (t : List Char) : Option (List Char) :=
  actionWords.findSome? (fun w =>
    if isPrefixCI w t then
      match (t.drop w.length).head? with
      | some c => if isWordC c then none else some w
      | none => some w
    else none)

def parsePendingDetailedStep (st : Option (List Char) × List TFPendingItem)
    (raw : List Char) : Option (List Char) × List TFPendingItem :=
  let line := trimL raw
  if line.isEmpty then st
  else if isPrefixL "$/".data line || isDriveL line then (some line, st.2)
  else
    match (if isPrefixCI "change:".data line then detChangeWord (ltrimL (line.drop 7)) else none) with
    | some w =>
      match st.1 with
      | some p => (none, st.2 ++ [⟨String.mk p, String.mk w⟩])
      | none => st
    | none =>
      if isPrefixL "---".data line then (none, st.2) else st

def parsePendingDetailed (stdout : String) : List TFPendingItem :=
  ((splitRNL stdout.data).foldl parsePendingDetailedStep (none, [])).2

/-! ## parseHistory (src/src/tfvc.ts lines 647-675)

The history parser applies multiline regexes to whole block strings.
ECMAScript semantics modelled here: `^` (with `/m`) matches at the start
of the string and after any line terminator (LF, CR, and between the CR
and the LF of a CRLF); `\s` matches whitespace including the terminators
themselves, so a `\s*` after a key can walk across line breaks; `$` with
`/m` matches before any terminator and at the end of the string, without
`/m` only at the end.  The block split keeps the original terminator
characters inside each block because the items section is re-split with
`/\r?\n/`, for which a lone CR is not a break. -/

def joinNL (ls : List (List Char)) : List Char := (ls.intersperse ['\n']).flatten

/-- The line grid of a string, each line content paired with its
terminator characters (CRLF, CR, LF; the final line has none). -/
def linesT : List Char → List (List Char × List Char)
  | [] => [([], [])]
  | c :: rest =>
    if c == '\n' then ([], ['\n']) :: linesT rest
    else if c == '\r' then
      match rest with
      | '\n' :: rest2 => ([], ['\r', '\n']) :: linesT rest2
      | other => ([], ['\r']) :: linesT other
    else
      match linesT rest with
      | [] => [([c], [])]
      | (l, t) :: ls => (c :: l, t) :: ls

/-- A separator match of `/^-{5,}\s*$/m` sits on a grid line of five or
more dashes followed by (non-terminator) whitespace: the dashes start at
a `^` position and `$` holds before the line terminator (or at the end
of the string for the last line). -/
def isSepLineL (l : List Char) : Bool :=
  decide ((l.takeWhile (fun c => c == '-')).length ≥ 5) &&
  (l.dropWhile (fun c => c == '-')).all (fun c => isWsC c)

def splitBlocksT : List (List Char × List Char) → List (List (List Char × List Char))
  | [] => [[]]
  | lr :: rest =>
    if isSepLineL lr.1 then [] :: splitBlocksT rest
    else
      match splitBlocksT rest with
      | [] => [[lr]]
      | b :: bs => (lr :: b) :: bs

/-- Rebuild the original characters of a run of grid lines. -/
def textOfLines (b : List (List Char × List Char)) : List Char :=
  (b.map (fun lr => lr.1 ++ lr.2)).flatten

/-- `stdout.split(/^-{5,}\s*$/m).map(b => b.trim()).filter(Boolean)`.
The separator's trailing `\s*$` may swallow adjacent whitespace-only
material into the separator (backtracking to the last position before a
terminator), but everything it can swallow beyond the dash line is pure
whitespace at a piece boundary, so after `.trim()` the pieces equal the
trimmed texts between separator lines. -/
def blocksOf (stdout : String) : List (List Char) :=
  ((splitBlocksT (linesT stdout.data)).map (fun b => trimL (textOfLines b))).filter
    (fun t => !t.isEmpty)

/-- `^\s*<key>` attempted at one `^` position: the greedy `\s*` must end
exactly at the first non-whitespace character (the key starts with a
non-whitespace letter, so no other backtracking stop can match), where
the literal key must begin, case-insensitively.  The whitespace walked
may include line terminators.  Yields the text after the key. -/
def keyAfterAt (key : List Char) (s : List Char) : Option (List Char) :=
  let t := s.dropWhile isWsC
  if isPrefixCI key t then some (t.drop key.length) else none

/-- Leftmost multiline search of `b.match`: try the single-position
matcher at the start of the string and after every terminator char, in
order (`^` positions are the only candidates for these patterns). -/
def mSearchGo {α : Type} (f : List Char → Option α) : List Char → Option α
  | [] => none
  | c :: rest =>
    if isDotC c then mSearchGo f rest
    else
      match f rest with
      | some v => some v
      | none => mSearchGo f rest

def mSearch {α : Type} (f : List Char → Option α) (s : List Char) : Option α :=
  match f s with
  | some v => some v
  | none => mSearchGo f s

/-- `/^\s*Changeset:\s*(\d+)/mi` at one `^` position: after the key the
greedy `\s*` walks any whitespace — line terminators included, so the
digits may sit on a later line — up to the first non-whitespace
character, which must start the digit run. -/
def csMatchAt (s : List Char) : Option Nat :=
  match keyAfterAt "changeset:".data s with
  | none => none
  | some r =>
    let ds := (r.dropWhile isWsC).takeWhile (fun c => c.isDigit)
    if ds.isEmpty then none
    else some (ds.foldl (fun acc c => acc * 10 + (c.toNat - 48)) 0)

/-- `b.match(/^\s*Changeset:\s*(\d+)/mi)`, `Number(...)` of the capture. -/
def blockId (b : List Char) : Option Nat := mSearch csMatchAt b

/-- The capture of `\s*(.+)$` (with `/m`) on the text after a key.  The
greedy `\s*` walks to the first non-whitespace character; if one exists
the capture is the run of non-terminator characters from there (after
which `$` holds).  If the rest is all whitespace, `\s*` backtracks until
`.+` can take a character, which happens exactly at the last
non-terminator character, so the capture is that single blank — which
trims to nothing. -/
def tailCapture (r : List Char) : Option (List Char) :=
  let w := r.dropWhile isWsC
  if w.isEmpty then
    match r.reverse.find? (fun c => isDotC c) with
    | some c => some [c]
    | none => none
  else some (w.takeWhile isDotC)

/-- `/^\s*<key>\s*(.+)$/mi` at one `^` position (User:/Date: lines). -/
def keyTailAt (key : List Char) (s : List Char) : Option (List Char) :=
  match keyAfterAt key s with
  | none => none
  | some r => tailCapture r

/-- The right-hand anchor `^\s*Items:` of the comment capture, tested at
a line start; its `\s*` may again cross terminators. -/
def itemsAnchorL (s : List Char) : Bool :=
  isPrefixCI "items:".data (s.dropWhile isWsC)

/-- The lazy `[\s\S]*?`: shortest prefix of `s` ending at a line start
where `^\s*Items:` matches; the terminator before that line start stays
inside the capture. -/
def capToAnchor : List Char → Option (List Char)
  | [] => none
  | c :: rest =>
    if isDotC c then
      match capToAnchor rest with
      | some pre => some (c :: pre)
      | none => none
    else
      if itemsAnchorL rest then some [c]
      else
        match capToAnchor rest with
        | some pre => some (c :: pre)
        | none => none

/-- `/^\s*Comment:\s*([\s\S]*?)^\s*Items:/mi` at one `^` position.
After the key the greedy `\s*` walks to the first non-whitespace
character; the lazy capture then runs to the first line start satisfying
`^\s*Items:` — the earliest such position is the end of the whitespace
run itself when the run ends with a terminator.  When no anchor exists
from there on, the greedy `\s*` backtracks into the whitespace run: a
terminator strictly inside the run offers a line start from which the
anchor test (whose own `\s*` walks the same run) can still succeed, with
a whitespace-only capture — empty after the final `.trim()`. -/
def commentCapAt (s : List Char) : Option (List Char) :=
  match keyAfterAt "comment:".data s with
  | none => none
  | some r =>
    let w := r.takeWhile isWsC
    let body := r.drop w.length
    if (match w.getLast? with
        | some c => !(isDotC c)
        | none => false) && itemsAnchorL body then
      some []
    else
      match capToAnchor body with
      | some pre => some pre
      | none =>
        if itemsAnchorL body && w.dropLast.any (fun c => !(isDotC c)) then some []
        else none

/-- One separator match of `b.split(/^\s*Items:\s*$/mi)` attempted at a
`^` position.  The trailing `\s*$` walks the whitespace after the key
and backtracks to the last position before a terminator, or runs to the
end of the string.  On success: whether the first unconsumed position is
again a line start (its preceding character is a terminator), and the
unconsumed suffix. -/
def sepItemsAt (s : List Char) : Option (Bool × List Char) :=
  match keyAfterAt "items:".data s with
  | none => none
  | some r =>
    let w := r.takeWhile isWsC
    let rest := r.drop w.length
    if rest.isEmpty then some (false, [])
    else
      let after := (w.reverse.takeWhile (fun c => isDotC c)).length
      if after = w.length then none
      else
        let k := w.length - after - 1
        some ((match (w.take k).getLast? with
               | some c => !(isDotC c)
               | none => false),
              w.drop k ++ rest)

/-- First separator match of the split, scanning `^` positions in
order. -/
def findSepGo : List Char → Option (Bool × List Char)
  | [] => none
  | c :: rest =>
    if isDotC c then findSepGo rest
    else
      match sepItemsAt rest with
      | some r => some r
      | none => findSepGo rest

def findSep (s : List Char) : Option (Bool × List Char) :=
  match sepItemsAt s with
  | some r => some r
  | none => findSepGo s

/-- The prefix of `s` before the next line-start position from which the
`Items:` separator matches: the second split piece ends where the second
separator match begins. -/
def cutGo : List Char → List Char
  | [] => []
  | c :: rest =>
    if isDotC c then c :: cutGo rest
    else
      if (sepItemsAt rest).isSome then [c]
      else c :: cutGo rest

def cutSep (atLS : Bool) (s : List Char) : List Char :=
  if atLS && (sepItemsAt s).isSome then [] else cutGo s

/-- Alternation `(edit|add|delete|rename|merge)` of the items section. -/
def historyFileWords : List (List Char) :=
  ["edit".data, "add".data, "delete".data, "rename".data, "merge".data]

/-- `/^\s*(edit|add|delete|rename|merge)\s+(.*)$/i` on one `/\r?\n/`
piece.  This regex has no `/m`, so `$` is the end of the piece and `.`
cannot cross a lone CR inside the piece; the greedy `\s+` can, so a
match requires everything after the whitespace run following the word to
be terminator-free (otherwise no backtracking reaches `$`).  `change`
keeps the matched word's original case, `path` is the trimmed capture. -/
def historyFileLine (l : List Char) : Option TFFileChange :=
  let t := l.dropWhile isWsC
  historyFileWords.findSome? (fun w =>
    if isPrefixCI w t then
      let r := t.drop w.length
      let ws := r.takeWhile isWsC
      if ws.isEmpty then none
      else
        let rest := r.drop ws.length
        if rest.all (fun c => isDotC c) then
          some ⟨String.mk (trimL rest), String.mk (t.take w.length)⟩
        else none
    else none)

/-- `(b.split(/^\s*Items:\s*$/mi)[1] || "").split(/\r?\n/)` with the
item pattern applied to every piece. -/
def filesOf (b : List Char) : List TFFileChange :=
  match findSep b with
  | none => []
  | some (atLS, rem) => (splitRNL (cutSep atLS rem)).filterMap historyFileLine

def blockItem (n : Nat) (b : List Char) : TFHistoryItem :=
  { changesetId := n
    author := String.mk (trimL ((mSearch (keyTailAt "user:".data) b).getD []))
    date := String.mk (trimL ((mSearch (keyTailAt "date:".data) b).getD []))
    comment := String.mk (trimL ((mSearch commentCapAt b).getD []))
    files := filesOf b }

def historyOfBlocks : List (List Char) → List TFHistoryItem
  | [] => []
  | b :: bs =>
    match blockId b with
    | some n => blockItem n b :: historyOfBlocks bs
    | none => historyOfBlocks bs

def parseHistory (stdout : String) : List TFHistoryItem := historyOfBlocks (blocksOf stdout)

/-! ## toLocalPath (src/src/tfvc.ts lines 150-171) -/

/-- `serverOrLocalPath.replace(/;C\d+$/i, "")`: strip one trailing
`;C<digits>` qualifier. -/
def stripChangesetSuffix (s : List Char) : List Char :=
  let r := s.reverse
  let ds := r.takeWhile (fun c => c.isDigit)
  if ds.isEmpty then s
  else
    match r.drop ds.length with
    | c1 :: c2 :: rest =>
      if (c1 == 'C' || c1 == 'c') && c2 == ';' then rest.reverse else s
    | _ => s

def splitOnCharP (p : Char → Bool) : List Char → List (List Char)
  | [] => [[]]
  | c :: rest =>
    if p c then [] :: splitOnCharP p rest
    else
      match splitOnCharP p rest with
      | [] => [[c]]
      | l :: ls => (c :: l) :: ls

def segsOf (l : List Char) : List (List Char) :=
  (splitOnCharP (fun c => c == '\\') l).filter (fun s => !s.isEmpty)

def resolveDots (absRoot : Bool) (segs : List (List Char)) : List (List Char) :=
  segs.foldl
    (fun acc seg =>
      if seg == ".".data then acc
      else if seg == "..".data then
        match acc.getLast? with
        | some lastSeg => if lastSeg == "..".data then acc ++ [seg] else acc.dropLast
        | none => if absRoot then acc else acc ++ [seg]
      else acc ++ [seg])
    []

def joinSegs (segs : List (List Char)) : List Char := (segs.intersperse ['\\']).flatten

def slashToBack (l : List Char) : List Char := l.map (fun c => if c == '/' then '\\' else c)

/-- Model of Node's win32 `path.normalize` for drive-letter, rooted and
relative paths (no UNC/device prefixes, which this extension never
builds). -/
def normalizeWin (p0 : List Char) : List Char :=
  let p := slashToBack p0
  match p with
  | a :: ':' :: '\\' :: rest =>
    if isAsciiAlphaC a then a :: ':' :: '\\' :: joinSegs (resolveDots true (segsOf rest))
    else
      let r := joinSegs (resolveDots false (segsOf p))
      if r.isEmpty then ".".data else r
  | '\\' :: rest => '\\' :: joinSegs (resolveDots true (segsOf rest))
  | _ =>
    let r := joinSegs (resolveDots false (segsOf p))
    if r.isEmpty then ".".data else r

/-- Model of Node's win32 `path.join` of two pieces. -/
def pathJoinL (a b : List Char) : List Char :=
  if a.isEmpty && b.isEmpty then ".".data
  else if a.isEmpty then normalizeWin b
  else if b.isEmpty then normalizeWin a
  else normalizeWin (a ++ '\\' :: b)

/-- `.replace(/^\/?/, "")` -/
def dropLeadFwd (l : List Char) : List Char :=
  match l with
  | '/' :: r => r
  | _ => l

def fwdToBack (l : List Char) : List Char := l.map (fun c => if c == '/' then '\\' else c)

/-- `toLocalPath` with the instance fields `cwd` and `config` explicit. -/
def toLocalPath (cwd : String) (config : Option VstfsConfig) (p : String) : String :=
  let cleaned := stripChangesetSuffix p.data
  if isDriveL cleaned then String.mk cleaned
  else
    let spC := match config with | some c => c.serverPath.data | none => []
    if !spC.isEmpty && isPrefixL spC cleaned then
      let rel := replBackFwd (dropLeadFwd (cleaned.drop spC.length))
      String.mk (fwdToBack (pathJoinL cwd.data rel))
    else if isPrefixL "$/".data cleaned then
      String.mk (fwdToBack (pathJoinL cwd.data (replBackFwd (cleaned.drop 2))))
    else
      String.mk (fwdToBack (pathJoinL cwd.data cleaned))

/-! ## Executor (src/src/tfvc.ts lines 75-148) -/

/-- `isAuthError` (lines 75-83). -/
def isAuthError (message : String) : Bool :=
  let m := toLowerL message.data
  containsL "tf30063".data m || containsL "not authorized".data m ||
  containsL "unauthorized".data m || containsL "401".data m

/-- Observable outcome of one `execWithAuthRetry` call: the result, how
many times `execOnce` ran the command, and how many sign-in attempts were
made. -/
instance : DecidableEq (Except String String) := fun a b =>
  match a, b with
  | .ok x, .ok y =>
    if h : x = y then isTrue (by rw [h]) else isFalse (fun hh => by cases hh; exact h rfl)
  | .error x, .error y =>
    if h : x = y then isTrue (by rw [h]) else isFalse (fun hh => by cases hh; exact h rfl)
  | .ok _, .error _ => isFalse (fun hh => by cases hh)
  | .error _, .ok _ => isFalse (fun hh => by cases hh)

structure ExecTrace where
  result : Except String String
  execCalls : Nat
  signIns : Nat
deriving DecidableEq, Repr

/-- Truthiness of `this.config?.serverUrl`. -/
def serverUrlSet (config : Option VstfsConfig) : Bool :=
  match config with
  | some c => !c.serverUrl.isEmpty
  | none => false

/-- `execWithAuthRetry` (lines 135-148) against an oracle giving the
outcome of the n-th `execOnce` invocation of the command.  `signIn`
swallows errors of its own helper invocation, so it always completes. -/
def execWithAuthRetry (config : Option VstfsConfig) (exec : Nat → Except String String) :
    ExecTrace :=
  match exec 0 with
  | .ok out => ⟨.ok out, 1, 0⟩
  | .error msg =>
    if isAuthError msg && serverUrlSet config then ⟨exec 1, 2, 1⟩
    else ⟨.error msg, 1, 0⟩

/-! ## pendingChanges and changeset dispatch (src/src/tfvc.ts lines 277-357, 429-443) -/

def applyLocal (cwd : String) (config : Option VstfsConfig)
    (items : List TFPendingItem) : List TFPendingItem :=
  items.map (fun it => ⟨toLocalPath cwd config it.file, it.action⟩)

/-- `pendingChanges` against the outcomes of its four query variants
(detailed, brief, brief+workspace, brief+collection), each an error or a
captured stdout. -/
def pendingChanges (cwd : String) (config : Option VstfsConfig)
    (r0 r1 r2 r3 : Except String String) : List TFPendingItem :=
  let s3 : List TFPendingItem :=
    match r3 with
    | .ok out => applyLocal cwd config (parsePending out)
    | .error _ => []
  let s2 :=
    match r2 with
    | .ok out =>
      let res := applyLocal cwd config (parsePending out)
      if res.isEmpty then s3 else res
    | .error _ => s3
  let s1 :=
    match r1 with
    | .ok out =>
      let res := applyLocal cwd config (parsePending out)
      if res.isEmpty then s2 else res
    | .error _ => s2
  match r0 with
  | .ok out =>
    let res := applyLocal cwd config (parsePendingDetailed out)
    if res.isEmpty then s1 else res
  | .error _ => s1

/-- `changeset` (lines 429-443) as a function of the history stdout:
`items.find(h => h.changesetId === id) || items[0]`, else `null`. -/
def changeset (id : Nat) (stdout : String) : Option TFHistoryItem :=
  let items := parseHistory stdout
  match items.find? (fun h => h.changesetId == id) with
  | some h => some h
  | none => items.head?

/-! ## Auxiliary definitions used by the claim statements -/

/-- Decimal digits of a natural number (the string JS produces for
`";C" + n`). -/
def natDigits (n : Nat) : List Char :=
  if _ : n < 10 then [Char.ofNat (48 + n)]
  else natDigits (n / 10) ++ [Char.ofNat (48 + n % 10)]
termination_by n
decreasing_by exact Nat.div_lt_self (by omega) (by omega)

/-- `parsePendingDetailed` run against an ambient console stream: the
source performs no console writes, so the stream is returned unchanged. -/
def parsePendingDetailedRun (w : List String) (stdout : String) :
    List TFPendingItem × List String :=
  (parsePendingDetailed stdout, w)

/-- `parseHistory` run against an ambient console stream (no writes). -/
def parseHistoryRun (w : List String) (stdout : String) :
    List TFHistoryItem × List String :=
  (parseHistory stdout, w)

/-- One data row of a compact status table: file name, change kind and
local path columns. -/
structure RowSpec where
  rname : List Char
  kind : List Char
  localp : List Char

def renderRow (r : RowSpec) : List Char :=
  r.rname ++ ' ' :: ' ' :: (r.kind ++ ' ' :: ' ' :: r.localp)

def headerRow : List Char := "File name  Change  Local path".data

def dashRow : List Char := "--------------------".data

/-- A compact status table: header line, separator line, data rows. -/
def renderTable (rows : List RowSpec) : List Char :=
  joinNL (headerRow :: dashRow :: rows.map renderRow)

/-- Well-formedness of a data row: nonempty name without two adjacent
whitespace characters and with non-whitespace ends, an alphabetic change
kind, a drive-letter local path, no NULs, and the rendered line is not
one of the banner/header shapes the parser skips. -/
def RowOK (r : RowSpec) : Prop :=
  r.rname ≠ [] ∧
  (∀ c ∈ r.rname, isDotC c = true) ∧
  (∀ c ∈ r.rname, (c == '\x00') = false) ∧
  hasDblWsL r.rname = false ∧
  (∀ c, r.rname.head? = some c → isWsC c = false) ∧
  (∀ c, r.rname.getLast? = some c → isWsC c = false) ∧
  r.kind ≠ [] ∧
  (∀ c ∈ r.kind, isAsciiAlphaC c = true) ∧
  isDriveL r.localp = true ∧
  (∀ c ∈ r.localp, isDotC c = true) ∧
  (∀ c ∈ r.localp, (c == '\x00') = false) ∧
  (∀ c, r.localp.getLast? = some c → isWsC c = false) ∧
  isPrefixL "---".data (renderRow r) = false ∧
  headerLineTest (renderRow r) = false ∧
  noPendingTest (renderRow r) = false ∧
  colWsUserTest (renderRow r) = false

/-- The record the parser should produce for a well-formed data row: the
local path column, and the lowercased change word found in the change
column, `"edit"` when none of the six words occurs there. -/
def rowItem (r : RowSpec) : TFPendingItem :=
  ⟨String.mk r.localp,
   String.mk (toLowerL
     (match searchK actionFindK none r.kind with
      | some acaps => capGet acaps 1
      | none => "edit".data))⟩

/-- Boolean form of "if this optional character exists it is not
whitespace", used to decide RowOK. -/
def optNotWs (o : Option Char) : Bool :=
  match o with
  | none => true
  | some c => !(isWsC c)

theorem optNotWs_iff (o : Option Char) :
    optNotWs o = true ↔ (∀ c, o = some c → isWsC c = false) := by
  cases o <;> simp [optNotWs]

instance (r : RowSpec) : Decidable (RowOK r) :=
  decidable_of_iff
    (r.rname ≠ [] ∧
     (∀ c ∈ r.rname, isDotC c = true) ∧
     (∀ c ∈ r.rname, (c == '\x00') = false) ∧
     hasDblWsL r.rname = false ∧
     optNotWs r.rname.head? = true ∧
     optNotWs r.rname.getLast? = true ∧
     r.kind ≠ [] ∧
     (∀ c ∈ r.kind, isAsciiAlphaC c = true) ∧
     isDriveL r.localp = true ∧
     (∀ c ∈ r.localp, isDotC c = true) ∧
     (∀ c ∈ r.localp, (c == '\x00') = false) ∧
     optNotWs r.localp.getLast? = true ∧
     isPrefixL "---".data (renderRow r) = false ∧
     headerLineTest (renderRow r) = false ∧
     noPendingTest (renderRow r) = false ∧
     colWsUserTest (renderRow r) = false)
    (by unfold RowOK; simp only [optNotWs_iff])

/-! ## Helper lemmas -/

theorem natDigits_ne_nil (n : Nat) : natDigits n ≠ [] := by
  unfold natDigits
  split
  · simp
  · simp

theorem charOfNat_digit (k : Nat) (hk : k < 10) : (Char.ofNat (48 + k)).isDigit = true := by
  interval_cases k <;> decide

theorem natDigits_all_digits (n : Nat) : ∀ c ∈ natDigits n, c.isDigit = true := by
  induction n using Nat.strong_induction_on with
  | _ n ih =>
    unfold natDigits
    split
    · rename_i h
      intro c hc
      simp only [List.mem_singleton] at hc
      subst hc
      exact charOfNat_digit n h
    · rename_i h
      intro c hc
      rcases List.mem_append.mp hc with h1 | h1
      · exact ih (n / 10) (Nat.div_lt_self (by omega) (by omega)) c h1
      · simp only [List.mem_singleton] at h1
        subst h1
        exact charOfNat_digit (n % 10) (Nat.mod_lt _ (by omega))

theorem takeWhile_append_all (p : Char → Bool) (a : List Char) (x : Char) (b : List Char)
    (ha : ∀ y ∈ a, p y = true) (hx : p x = false) :
    (a ++ x :: b).takeWhile p = a := by
  induction a with
  | nil => simp [List.takeWhile, hx]
  | cons c a1 ih =>
    have hc : p c = true := ha c (by simp)
    simp only [List.cons_append, List.takeWhile_cons, hc, if_true]
    rw [ih (fun y hy => ha y (by simp [hy]))]

theorem stripChangesetSuffix_append_digits (p : List Char) (ds : List Char)
    (hne : ds ≠ []) (hds : ∀ c ∈ ds, c.isDigit = true) :
    stripChangesetSuffix (p ++ ';' :: 'C' :: ds) = p := by
  simp only [stripChangesetSuffix]
  have hrev : (p ++ ';' :: 'C' :: ds).reverse = ds.reverse ++ 'C' :: ';' :: p.reverse := by
    simp
  rw [hrev]
  have htw : (ds.reverse ++ 'C' :: ';' :: p.reverse).takeWhile (fun c => c.isDigit) =
      ds.reverse := by
    refine takeWhile_append_all _ _ _ _ (fun y hy => hds y ?_) (by decide)
    exact List.mem_reverse.mp hy
  rw [htw]
  have hemp : ds.reverse.isEmpty = false := by
    cases hd : ds.reverse with
    | nil => exact absurd (List.reverse_eq_nil_iff.mp hd) hne
    | cons c t => rfl
  rw [hemp]
  simp only [Bool.false_eq_true, if_false]
  rw [List.drop_left]
  simp

/-! ## Matcher lemmas -/

theorem takeMin_zero (cl : Char → Bool) (p : Option Char) (s : List Char) :
    takeMin cl 0 p s = some ([], p, s) := rfl

theorem takeMin_succ (cl : Char → Bool) (n : Nat) (p : Option Char) (c : Char) (s : List Char) :
    takeMin cl (n + 1) p (c :: s) =
      if cl c then
        match takeMin cl n (some c) s with
        | some (t, p1, r) => some (c :: t, p1, r)
        | none => none
      else none := rfl

theorem takeMin_succ_nil (cl : Char → Bool) (n : Nat) (p : Option Char) :
    takeMin cl (n + 1) p [] = none := rfl

theorem lastPrev_cons (c : Char) (s : List Char) (prev : Option Char) :
    lastPrev (c :: s) prev = lastPrev s (some c) := by
  cases s with
  | nil => rfl
  | cons d t =>
    cases he : (d :: t).getLast? with
    | none => exact absurd (List.getLast?_eq_none_iff.mp he) (by simp)
    | some e => simp [lastPrev, List.getLast?_cons_cons, he]

theorem clsLazy_hit (cl : Char → Bool) (k : K) (prev : Option Char) (s : List Char)
    (caps : Caps) (h : k prev s = some caps) : clsLazy cl k prev s = some ([], caps) := by
  cases s with
  | nil => rw [clsLazy, h]
  | cons c s1 => rw [clsLazy, h]

theorem clsLazy_miss_nil (cl : Char → Bool) (k : K) (prev : Option Char)
    (h : k prev [] = none) : clsLazy cl k prev [] = none := by
  rw [clsLazy, h]

theorem clsLazy_miss_cons (cl : Char → Bool) (k : K) (prev : Option Char) (c : Char)
    (s1 : List Char) (h : k prev (c :: s1) = none) :
    clsLazy cl k prev (c :: s1) =
      if cl c then
        match clsLazy cl k (some c) s1 with
        | some (t, caps) => some (c :: t, caps)
        | none => none
      else none := by
  rw [clsLazy, h]

theorem clsGreedy_nil (cl : Char → Bool) (k : K) (prev : Option Char) :
    clsGreedy cl k prev [] =
      match k prev [] with
      | some caps => some (([] : List Char), caps)
      | none => none := by
  rw [clsGreedy]

theorem clsGreedy_cons (cl : Char → Bool) (k : K) (prev : Option Char) (c : Char)
    (s1 : List Char) :
    clsGreedy cl k prev (c :: s1) =
      if cl c then
        match clsGreedy cl k (some c) s1 with
        | some (t, caps) => some (c :: t, caps)
        | none =>
          match k prev (c :: s1) with
          | some caps => some ([], caps)
          | none => none
      else
        match k prev (c :: s1) with
        | some caps => some ([], caps)
        | none => none := by
  rw [clsGreedy]

/-- Greedy repetition consumes a fully-in-class input when the
continuation accepts at its end. -/
theorem clsGreedy_all (cl : Char → Bool) (k : K) :
    ∀ (s : List Char) (prev : Option Char) (caps : Caps),
      (∀ c ∈ s, cl c = true) →
      (∀ p, k p [] = some caps) →
      clsGreedy cl k prev s = some (s, caps) := by
  intro s
  induction s with
  | nil =>
    intro prev caps _ hk
    rw [clsGreedy_nil, hk prev]
  | cons c s1 ih =>
    intro prev caps hall hk
    rw [clsGreedy_cons]
    simp only [hall c (by simp), if_true]
    rw [ih (some c) caps (fun x hx => hall x (by simp [hx])) hk]

/-- Greedy repetition stops before a character outside the class. -/
theorem clsGreedy_stop (cl : Char → Bool) (k : K) (prev : Option Char) (c : Char)
    (s : List Char) (hc : cl c = false) :
    clsGreedy cl k prev (c :: s) =
      match k prev (c :: s) with
      | some caps => some ([], caps)
      | none => none := by
  rw [clsGreedy_cons, hc]
  simp

/-- Lazy repetition walks through a fully-in-class prefix on which the
continuation fails everywhere, and stops at the first position where it
succeeds. -/
theorem clsLazy_through (cl : Char → Bool) (k : K) :
    ∀ (a rest : List Char) (prev : Option Char) (caps : Caps),
      (∀ c ∈ a, cl c = true) →
      (∀ (a1 : List Char) (p : Option Char), a1 ≠ [] → (∃ pre, pre ++ a1 = a) →
        k p (a1 ++ rest) = none) →
      (∀ p, k p rest = some caps) →
      clsLazy cl k prev (a ++ rest) = some (a, caps) := by
  intro a
  induction a with
  | nil =>
    intro rest prev caps _ _ hhit
    rw [List.nil_append]
    exact clsLazy_hit cl k prev rest caps (hhit prev)
  | cons c a1 ih =>
    intro rest prev caps hall hfail hhit
    have hk0 : k prev (c :: (a1 ++ rest)) = none := by
      have h := hfail (c :: a1) prev (by simp) ⟨[], rfl⟩
      simpa using h
    have hrec : clsLazy cl k (some c) (a1 ++ rest) = some (a1, caps) := by
      refine ih rest (some c) caps (fun x hx => hall x (by simp [hx])) ?_ hhit
      intro a2 p ha2 hsuf
      obtain ⟨pre, hp⟩ := hsuf
      refine hfail a2 p ha2 ⟨c :: pre, ?_⟩
      rw [List.cons_append, hp]
    show clsLazy cl k prev (c :: (a1 ++ rest)) = some (c :: a1, caps)
    rw [clsLazy_miss_cons cl k prev c (a1 ++ rest) hk0]
    simp only [hall c (by simp), if_true]
    rw [hrec]

/-- Lazy repetition fails when the continuation fails on every input
satisfying a tail-closed invariant. -/
theorem clsLazy_none (cl : Char → Bool) (k : K) (P : List Char → Prop)
    (hstep : ∀ c s, P (c :: s) → P s) (hk : ∀ p s, P s → k p s = none) :
    ∀ (s : List Char) (prev : Option Char), P s → clsLazy cl k prev s = none := by
  intro s
  induction s with
  | nil =>
    intro prev hP
    exact clsLazy_miss_nil cl k prev (hk prev [] hP)
  | cons c s1 ih =>
    intro prev hP
    rw [clsLazy_miss_cons cl k prev c s1 (hk prev (c :: s1) hP)]
    by_cases hc : cl c = true
    · rw [hc]
      simp only [if_true]
      rw [ih (some c) (hstep c s1 hP)]
    · rw [Bool.eq_false_iff.mpr hc]
      simp

/-- A `\s{2,}` token fails when the first two characters are not both
whitespace. -/
theorem kClsWs2_fail (cap : Option Nat) (k : K) (p : Option Char) (c1 c2 : Char)
    (s : List Char) (h : (isWsC c1 && isWsC c2) = false) :
    kCls isWsC 2 false cap k p (c1 :: c2 :: s) = none := by
  unfold kCls
  rw [show (2 : Nat) = 1 + 1 from rfl, takeMin_succ]
  cases hc1 : isWsC c1 with
  | false => simp
  | true =>
    have hc2 : isWsC c2 = false := by
      rw [hc1] at h
      simpa using h
    rw [takeMin_succ]
    rw [hc2]
    simp

/-- A `\s{2,}` token on `"  " ++ (c :: rest)` with `c` not whitespace
consumes exactly the two spaces. -/
theorem kClsWs2_sep (cap : Option Nat) (k : K) (p : Option Char) (c : Char)
    (rest : List Char) (hc : isWsC c = false) :
    kCls isWsC 2 false cap k p (' ' :: ' ' :: c :: rest) =
      (k (some ' ') (c :: rest)).map (fun caps => addCap cap [' ', ' '] caps) := by
  unfold kCls
  rw [show (2 : Nat) = 1 + 1 from rfl, takeMin_succ]
  rw [show isWsC ' ' = true from rfl]
  simp only [if_true]
  rw [takeMin_succ]
  rw [show isWsC ' ' = true from rfl]
  simp only [if_true, takeMin_zero]
  rw [clsGreedy_stop _ _ _ _ _ hc]
  cases hk : k (some ' ') (c :: rest) with
  | none => simp
  | some caps => simp

theorem alpha_not_ws (c : Char) (h : isAsciiAlphaC c = true) : isWsC c = false := by
  by_contra hne
  have hw : isWsC c = true := by
    cases hv : isWsC c with
    | false => exact absurd hv hne
    | true => rfl
  unfold isWsC at hw
  simp only [Bool.or_eq_true, beq_iff_eq] at hw
  rcases hw with ((((h1 | h1) | h1) | h1) | h1) | h1 <;>
    (subst h1; exact absurd h (by decide))

theorem alpha_not_nul (c : Char) (h : isAsciiAlphaC c = true) : (c == '\x00') = false := by
  by_contra hne
  have hw : (c == '\x00') = true := by
    cases hv : c == '\x00' with
    | false => exact absurd hv hne
    | true => rfl
  have : c = '\x00' := beq_iff_eq.mp hw
  subst this
  exact absurd h (by decide)

theorem alpha_chg (c : Char) (h : isAsciiAlphaC c = true) : isChangeColC c = true := by
  unfold isChangeColC
  rw [h]
  rfl

theorem alpha_dot (c : Char) (h : isAsciiAlphaC c = true) : isDotC c = true := by
  by_contra hne
  have hw : isDotC c = false := by
    cases hv : isDotC c with
    | false => rfl
    | true => exact absurd hv hne
  unfold isDotC at hw
  simp only [Bool.not_eq_false', Bool.or_eq_true, beq_iff_eq] at hw
  rcases hw with h1 | h1 <;> (subst h1; exact absurd h (by decide))

theorem hasDblWsL_cons2 (c1 c2 : Char) (rest : List Char) :
    hasDblWsL (c1 :: c2 :: rest) = ((isWsC c1 && isWsC c2) || hasDblWsL (c2 :: rest)) := by
  rw [hasDblWsL]

/-- Adjacent characters inside a list without a double-whitespace run
are never both whitespace. -/
theorem hasDblWs_adj : ∀ (pre : List Char) (c1 c2 : Char) (post : List Char),
    hasDblWsL (pre ++ c1 :: c2 :: post) = false → (isWsC c1 && isWsC c2) = false := by
  intro pre
  induction pre with
  | nil =>
    intro c1 c2 post h
    rw [List.nil_append, hasDblWsL_cons2] at h
    exact (Bool.or_eq_false_iff.mp h).1
  | cons c pre ih =>
    intro c1 c2 post h
    rw [List.cons_append] at h
    cases hp : pre ++ c1 :: c2 :: post with
    | nil => exact absurd hp (by simp)
    | cons x rest =>
      rw [hp, hasDblWsL_cons2] at h
      have h2 := (Bool.or_eq_false_iff.mp h).2
      rw [← hp] at h2
      exact ih c1 c2 post h2

/-- A list containing an explicit two-space separator has a
double-whitespace run. -/
theorem hasDblWs_sep (x y : List Char) : hasDblWsL (x ++ ' ' :: ' ' :: y) = true := by
  induction x with
  | nil =>
    rw [List.nil_append, hasDblWsL_cons2]
    rw [show isWsC ' ' = true from rfl]
    rfl
  | cons c x ih =>
    rw [List.cons_append]
    cases hx : x ++ ' ' :: ' ' :: y with
    | nil => exact absurd hx (by simp)
    | cons d t =>
      rw [hasDblWsL_cons2, ← hx, ih]
      simp

theorem isPrefixL_take : ∀ (p s : List Char), isPrefixL p s = true → s.take p.length = p := by
  intro p
  induction p with
  | nil => intro s _; rfl
  | cons c p ih =>
    intro s h
    cases s with
    | nil => exact absurd h (by simp [isPrefixL])
    | cons d t =>
      unfold isPrefixL at h
      obtain ⟨h1, h2⟩ := Bool.and_eq_true_iff.mp h
      have : c = d := beq_iff_eq.mp h1
      subst this
      simp only [List.length_cons, List.take_succ_cons]
      rw [ih t h2]

theorem prefixCI_take (w s : List Char) (h : isPrefixCI w s = true) :
    toLowerL (s.take w.length) = toLowerL w := by
  unfold isPrefixCI at h
  have := isPrefixL_take (toLowerL w) (toLowerL s) h
  have hlen : (toLowerL w).length = w.length := List.length_map _ _
  rw [hlen] at this
  unfold toLowerL
  rw [List.map_take]
  exact this

theorem kCls_one_lazy (cl : Char → Bool) (cap : Option Nat) (k : K) (p : Option Char)
    (c : Char) (s : List Char) (hc : cl c = true) :
    kCls cl 1 true cap k p (c :: s) =
      match clsLazy cl k (some c) s with
      | some (t, caps) => some (addCap cap (c :: t) caps)
      | none => none := by
  unfold kCls
  rw [show (1 : Nat) = 0 + 1 from rfl, takeMin_succ, if_pos hc, takeMin_zero]
  simp

theorem kCls_one_greedy (cl : Char → Bool) (cap : Option Nat) (k : K) (p : Option Char)
    (c : Char) (s : List Char) (hc : cl c = true) :
    kCls cl 1 false cap k p (c :: s) =
      match clsGreedy cl k (some c) s with
      | some (t, caps) => some (addCap cap (c :: t) caps)
      | none => none := by
  unfold kCls
  rw [show (1 : Nat) = 0 + 1 from rfl, takeMin_succ, if_pos hc, takeMin_zero]
  simp

theorem isDriveL_shape (l : List Char) (h : isDriveL l = true) :
    ∃ a t, l = a :: t ∧ isAsciiAlphaC a = true := by
  match l, h with
  | a :: b :: c :: t, h =>
    refine ⟨a, b :: c :: t, rfl, ?_⟩
    simp only [isDriveL, Bool.and_eq_true] at h
    exact h.1.1

theorem head?_append_left (x y : List Char) (hx : x ≠ []) :
    (x ++ y).head? = x.head? := by
  cases x with
  | nil => exact absurd rfl hx
  | cons c t => rfl

theorem getLast?_append_right (x y : List Char) (hy : y ≠ []) :
    (x ++ y).getLast? = y.getLast? := by
  rw [List.getLast?_append]
  cases hyy : y.getLast? with
  | none => exact absurd (List.getLast?_eq_none_iff.mp hyy) hy
  | some c => rfl

theorem rtrimL_id (l : List Char) (hl : ∀ c, l.getLast? = some c → isWsC c = false) :
    rtrimL l = l := by
  unfold rtrimL
  cases hrev : l.reverse with
  | nil =>
    rw [List.reverse_eq_nil_iff.mp hrev]
    rfl
  | cons c t =>
    have hlast : l.getLast? = some c := by
      rw [← List.head?_reverse, hrev]
      rfl
    rw [List.dropWhile_cons, hl c hlast]
    simp only [Bool.false_eq_true, if_false]
    rw [← hrev, List.reverse_reverse]

theorem trimL_id (l : List Char) (hh : ∀ c, l.head? = some c → isWsC c = false)
    (hl : ∀ c, l.getLast? = some c → isWsC c = false) : trimL l = l := by
  unfold trimL
  rw [rtrimL_id l hl]
  unfold ltrimL
  cases hl0 : l with
  | nil => rfl
  | cons c t =>
    have hhead : l.head? = some c := by rw [hl0]; rfl
    rw [List.dropWhile_cons, hh c hhead]
    simp

/-- The table pattern `^(.+?)\s{2,}([A-Za-z, ]+?)\s{2,}(.+)$` matches a
well-formed rendered row and captures exactly its three columns. -/
theorem t1K_row (r : RowSpec)
    (h1 : r.rname ≠ []) (h2 : ∀ c ∈ r.rname, isDotC c = true)
    (h4 : hasDblWsL r.rname = false)
    (h6 : ∀ c, r.rname.getLast? = some c → isWsC c = false)
    (h7 : r.kind ≠ []) (h8 : ∀ c ∈ r.kind, isAsciiAlphaC c = true)
    (h9 : isDriveL r.localp = true) (h10 : ∀ c ∈ r.localp, isDotC c = true) :
    t1K none (renderRow r) = some [(1, r.rname), (2, r.kind), (3, r.localp)] := by
  obtain ⟨l0, lt, hlp, hl0⟩ := isDriveL_shape r.localp h9
  obtain ⟨k0, kt, hk⟩ : ∃ k0 kt, r.kind = k0 :: kt := by
    cases hkk : r.kind with
    | nil => exact absurd hkk h7
    | cons a b => exact ⟨a, b, rfl⟩
  obtain ⟨n0, nt, hn⟩ : ∃ n0 nt, r.rname = n0 :: nt := by
    cases hnn : r.rname with
    | nil => exact absurd hnn h1
    | cons a b => exact ⟨a, b, rfl⟩
  have hdot0 : isDotC l0 = true := h10 l0 (by rw [hlp]; simp)
  have hltdot : ∀ c ∈ lt, isDotC c = true := fun c hc => h10 c (by rw [hlp]; simp [hc])
  -- Step A: `(.+)$` consumes the whole local path column.
  have hA : ∀ p, kCls isDotC 1 false (some 3) (kEos kEnd) p r.localp
      = some [(3, r.localp)] := by
    intro p
    rw [hlp, kCls_one_greedy isDotC (some 3) (kEos kEnd) p l0 lt hdot0]
    rw [clsGreedy_all isDotC (kEos kEnd) lt (some l0) [] hltdot (fun q => rfl)]
    simp [addCap]
  -- Step B: the second `\s{2,}` consumes the two-space separator.
  have hB : ∀ p, kCls isWsC 2 false none (kCls isDotC 1 false (some 3) (kEos kEnd)) p
      (' ' :: ' ' :: r.localp) = some [(3, r.localp)] := by
    intro p
    rw [hlp, kClsWs2_sep none _ p l0 lt (alpha_not_ws l0 hl0), ← hlp, hA (some ' ')]
    rfl
  -- Step C: `([A-Za-z, ]+?)` consumes exactly the change column.
  have hkalpha0 : isAsciiAlphaC k0 = true := h8 k0 (by rw [hk]; simp)
  have hC : ∀ p, kCls isChangeColC 1 true (some 2)
      (kCls isWsC 2 false none (kCls isDotC 1 false (some 3) (kEos kEnd))) p
      (r.kind ++ ' ' :: ' ' :: r.localp) = some [(2, r.kind), (3, r.localp)] := by
    intro p
    have hallchg : ∀ c ∈ kt, isChangeColC c = true :=
      fun c hc => alpha_chg c (h8 c (by rw [hk]; simp [hc]))
    have hfail : ∀ (a1 : List Char) (q : Option Char), a1 ≠ [] → (∃ pre, pre ++ a1 = kt) →
        kCls isWsC 2 false none (kCls isDotC 1 false (some 3) (kEos kEnd)) q
          (a1 ++ ' ' :: ' ' :: r.localp) = none := by
      intro a1 q ha1 hsuf
      obtain ⟨pre, hpre⟩ := hsuf
      cases a1 with
      | nil => exact absurd rfl ha1
      | cons d dt =>
        have hdmem : d ∈ r.kind := by
          rw [hk, ← hpre]
          simp
        have hdws : isWsC d = false := alpha_not_ws d (h8 d hdmem)
        cases hdd : dt ++ ' ' :: ' ' :: r.localp with
        | nil => exact absurd hdd (by simp)
        | cons e t2 =>
          show kCls isWsC 2 false none _ q (d :: (dt ++ ' ' :: ' ' :: r.localp)) = none
          rw [hdd]
          exact kClsWs2_fail none _ q d e t2 (by rw [hdws]; rfl)
    have hhit : ∀ q, kCls isWsC 2 false none (kCls isDotC 1 false (some 3) (kEos kEnd)) q
        (' ' :: ' ' :: r.localp) = some [(3, r.localp)] := hB
    rw [hk, List.cons_append]
    rw [kCls_one_lazy isChangeColC (some 2) _ p k0 (kt ++ ' ' :: ' ' :: r.localp)
      (alpha_chg k0 hkalpha0)]
    rw [clsLazy_through isChangeColC _ kt (' ' :: ' ' :: r.localp) (some k0)
      [(3, r.localp)] hallchg hfail hhit]
    simp [addCap]
  -- Step D: the first `\s{2,}` consumes the first two-space separator.
  have hD : ∀ p, kCls isWsC 2 false none
      (kCls isChangeColC 1 true (some 2)
        (kCls isWsC 2 false none (kCls isDotC 1 false (some 3) (kEos kEnd)))) p
      (' ' :: ' ' :: (r.kind ++ ' ' :: ' ' :: r.localp))
      = some [(2, r.kind), (3, r.localp)] := by
    intro p
    rw [hk, List.cons_append]
    rw [kClsWs2_sep none _ p k0 (kt ++ ' ' :: ' ' :: r.localp) (alpha_not_ws k0 hkalpha0)]
    rw [← List.cons_append, ← hk, hC (some ' ')]
    rfl
  -- Step E: `(.+?)` walks lazily through the name column.
  have halldotn : ∀ c ∈ nt, isDotC c = true := fun c hc => h2 c (by rw [hn]; simp [hc])
  have hfailn : ∀ (a1 : List Char) (q : Option Char), a1 ≠ [] → (∃ pre, pre ++ a1 = nt) →
      kCls isWsC 2 false none
        (kCls isChangeColC 1 true (some 2)
          (kCls isWsC 2 false none (kCls isDotC 1 false (some 3) (kEos kEnd)))) q
        (a1 ++ ' ' :: ' ' :: (r.kind ++ ' ' :: ' ' :: r.localp)) = none := by
    intro a1 q ha1 hsuf
    obtain ⟨pre, hpre⟩ := hsuf
    cases a1 with
    | nil => exact absurd rfl ha1
    | cons d dt =>
      cases dt with
      | nil =>
        have hlast : r.rname.getLast? = some d := by
          rw [hn, ← hpre]
          rw [show n0 :: (pre ++ [d]) = (n0 :: pre) ++ [d] from by simp]
          exact List.getLast?_concat _
        have hdw : isWsC d = false := h6 d hlast
        show kCls isWsC 2 false none _ q
          (d :: ' ' :: ' ' :: (r.kind ++ ' ' :: ' ' :: r.localp)) = none
        exact kClsWs2_fail none _ q d ' ' _ (by rw [hdw]; rfl)
      | cons d2 dt2 =>
        have hfull : hasDblWsL ((n0 :: pre) ++ d :: d2 :: dt2) = false := by
          rw [show (n0 :: pre) ++ d :: d2 :: dt2 = r.rname from by rw [hn, ← hpre]; simp]
          exact h4
        have hadj := hasDblWs_adj (n0 :: pre) d d2 dt2 hfull
        show kCls isWsC 2 false none _ q
          (d :: d2 :: (dt2 ++ ' ' :: ' ' :: (r.kind ++ ' ' :: ' ' :: r.localp))) = none
        exact kClsWs2_fail none _ q d d2 _ hadj
  show kCls isDotC 1 true (some 1)
      (kCls isWsC 2 false none
        (kCls isChangeColC 1 true (some 2)
          (kCls isWsC 2 false none (kCls isDotC 1 false (some 3) (kEos kEnd))))) none
      (renderRow r) = some [(1, r.rname), (2, r.kind), (3, r.localp)]
  rw [show renderRow r = r.rname ++ ' ' :: ' ' :: (r.kind ++ ' ' :: ' ' :: r.localp) from rfl]
  rw [hn, List.cons_append]
  rw [kCls_one_lazy isDotC (some 1) _ none n0
    (nt ++ ' ' :: ' ' :: (r.kind ++ ' ' :: ' ' :: r.localp)) (h2 n0 (by rw [hn]; simp))]
  rw [clsLazy_through isDotC _ nt (' ' :: ' ' :: (r.kind ++ ' ' :: ' ' :: r.localp))
    (some n0) [(2, r.kind), (3, r.localp)] halldotn hfailn hD]
  simp [addCap]

theorem mem_of_getLast? : ∀ (l : List Char) (c : Char), l.getLast? = some c → c ∈ l := by
  intro l
  induction l with
  | nil => intro c h; exact absurd h (by simp)
  | cons a t ih =>
    intro c h
    cases t with
    | nil =>
      have : a = c := by simpa using h
      subst this
      simp
    | cons b t2 =>
      rw [List.getLast?_cons_cons] at h
      exact List.mem_cons_of_mem a (ih c h)

theorem renderRow_head? (r : RowSpec) (h1 : r.rname ≠ []) :
    (renderRow r).head? = r.rname.head? :=
  head?_append_left _ _ h1

theorem renderRow_getLast? (r : RowSpec) (hlp : r.localp ≠ []) :
    (renderRow r).getLast? = r.localp.getLast? := by
  unfold renderRow
  rw [getLast?_append_right _ _ (by simp)]
  rw [show ' ' :: ' ' :: (r.kind ++ ' ' :: ' ' :: r.localp) =
    ([' ', ' '] ++ r.kind) ++ (' ' :: ' ' :: r.localp) from by simp]
  rw [getLast?_append_right _ _ (by simp)]
  rw [show ' ' :: ' ' :: r.localp = [' ', ' '] ++ r.localp from rfl]
  rw [getLast?_append_right _ _ hlp]

theorem trim_renderRow (r : RowSpec) (h1 : r.rname ≠ [])
    (h5 : ∀ c, r.rname.head? = some c → isWsC c = false)
    (h9 : isDriveL r.localp = true)
    (h12 : ∀ c, r.localp.getLast? = some c → isWsC c = false) :
    trimL (renderRow r) = renderRow r := by
  obtain ⟨a, t, hsh, _⟩ := isDriveL_shape r.localp h9
  apply trimL_id
  · intro c hc
    rw [renderRow_head? r h1] at hc
    exact h5 c hc
  · intro c hc
    rw [renderRow_getLast? r (by rw [hsh]; simp)] at hc
    exact h12 c hc

/-- On a well-formed data row `tryParseRow` fires the three-column table
pattern and returns the expected record. -/
theorem tryParseRow_row (folder : Option (List Char)) (r : RowSpec) (hok : RowOK r) :
    tryParseRow folder (renderRow r) = some (rowItem r) := by
  obtain ⟨h1, h2, h3, h4, h5, h6, h7, h8, h9, h10, h11, h12, h13, h14, h15, h16⟩ := hok
  have htrim := trim_renderRow r h1 h5 h9 h12
  have ht1 := t1K_row r h1 h2 h4 h6 h7 h8 h9 h10
  have htn : trimL r.rname = r.rname := trimL_id _ h5 h6
  have htk : trimL r.kind = r.kind := by
    refine trimL_id _ ?_ ?_
    · intro c hc
      exact alpha_not_ws c (h8 c (List.mem_of_mem_head? (by rw [hc]; rfl)))
    · intro c hc
      exact alpha_not_ws c (h8 c (mem_of_getLast? _ c hc))
  have htl : trimL r.localp = r.localp := by
    obtain ⟨a, t, hsh, hal⟩ := isDriveL_shape r.localp h9
    refine trimL_id _ ?_ h12
    intro c hc
    rw [hsh] at hc
    have hac : a = c := by simpa using hc
    exact alpha_not_ws c (hac ▸ hal)
  simp only [tryParseRow, htrim, ht1]
  rw [show capGet [(1, r.rname), (2, r.kind), (3, r.localp)] 1 = r.rname from rfl,
    show capGet [(1, r.rname), (2, r.kind), (3, r.localp)] 2 = r.kind from rfl,
    show capGet [(1, r.rname), (2, r.kind), (3, r.localp)] 3 = r.localp from rfl]
  rw [htn, htk, htl]
  rw [if_pos h9]
  rfl

/-- A well-formed data row line appends exactly its record to the
parser state (and clears the wrap buffer and name fragment). -/
theorem ppStep_row (st : PPState) (r : RowSpec) (hok : RowOK r) (hfrag : st.frag = none) :
    ppStep st (renderRow r) =
      { st with items := st.items ++ [rowItem r], buffer := [], frag := none } := by
  have hrow := tryParseRow_row st.folder r hok
  obtain ⟨h1, h2, h3, h4, h5, h6, h7, h8, h9, h10, h11, h12, h13, h14, h15, h16⟩ := hok
  have htrim := trim_renderRow r h1 h5 h9 h12
  have hdbl : hasDblWsL (renderRow r) = true := hasDblWs_sep r.rname _
  simp only [ppStep, htrim, h13, h14, h15, h16, hdbl, hfrag, hrow, Bool.not_true,
    Bool.and_false, Bool.false_and, Bool.false_eq_true, if_false]

theorem foldl_ppStep_rows (rows : List RowSpec) :
    ∀ (st : PPState), (∀ r ∈ rows, RowOK r) → st.frag = none →
      ((rows.map renderRow).foldl ppStep st).items = st.items ++ rows.map rowItem := by
  induction rows with
  | nil => intro st _ _; simp
  | cons r rows ih =>
    intro st hok hfrag
    rw [List.map_cons, List.foldl_cons, ppStep_row st r (hok r (by simp)) hfrag]
    rw [ih _ (fun x hx => hok x (by simp [hx])) rfl]
    simp

theorem splitNL_cons_other (c : Char) (rest : List Char) (hc1 : (c == '\n') = false) :
    splitNL (c :: rest) =
      match splitNL rest with
      | [] => [[c]]
      | l :: ls => (c :: l) :: ls := by
  rw [splitNL, hc1]
  rfl

theorem splitNL_line (l : List Char)
    (hl : ∀ c ∈ l, (c == '\n') = false) (rest : List Char) :
    splitNL (l ++ '\n' :: rest) = l :: splitNL rest := by
  induction l with
  | nil =>
    rw [List.nil_append, splitNL]
    rfl
  | cons c t ih =>
    rw [List.cons_append, splitNL_cons_other c _ (hl c (by simp))]
    rw [ih (fun x hx => hl x (by simp [hx]))]

theorem splitNL_single (l : List Char) (hl : ∀ c ∈ l, (c == '\n') = false) :
    splitNL l = [l] := by
  induction l with
  | nil => rfl
  | cons c t ih =>
    rw [splitNL_cons_other c t (hl c (by simp)), ih (fun x hx => hl x (by simp [hx]))]

theorem splitNL_joinNL : ∀ (ls : List (List Char)), ls ≠ [] →
    (∀ l ∈ ls, ∀ c ∈ l, (c == '\n') = false) →
    splitNL (joinNL ls) = ls := by
  intro ls
  induction ls with
  | nil => intro h _; exact absurd rfl h
  | cons l rest ih =>
    intro _ hl
    cases rest with
    | nil =>
      rw [show joinNL [l] = l from by simp [joinNL]]
      exact splitNL_single l (hl l (by simp))
    | cons l2 rest2 =>
      rw [show joinNL (l :: l2 :: rest2) = l ++ '\n' :: joinNL (l2 :: rest2) from by
        simp [joinNL, List.intersperse_cons_cons]]
      rw [splitNL_line l (hl l (by simp)) _]
      rw [ih (by simp) (fun x hx => hl x (by simp [hx]))]

theorem dropTrailCR_id (l : List Char) (hl : ∀ c ∈ l, (c == '\r') = false) :
    dropTrailCR l = l := by
  unfold dropTrailCR
  cases hg : l.getLast? with
  | none => rfl
  | some c =>
    have hc := hl c (mem_of_getLast? l c hg)
    cases hcc : c == '\r' with
    | true => exact absurd hcc (by rw [hc]; simp)
    | false =>
      have : c ≠ '\r' := by
        intro he
        subst he
        simp at hcc
      split
      · rename_i heq
        exact absurd (Option.some.inj heq) this
      · rfl

theorem mapButLast_id (f : List Char → List Char) :
    ∀ (ls : List (List Char)), (∀ l ∈ ls, f l = l) → mapButLast f ls = ls := by
  intro ls
  induction ls with
  | nil => intro _; rfl
  | cons x xs ih =>
    intro h
    cases xs with
    | nil => rfl
    | cons y ys =>
      show f x :: mapButLast f (y :: ys) = x :: y :: ys
      rw [h x (by simp), ih (fun l hl => h l (by simp [hl]))]

theorem splitRNL_joinNL (ls : List (List Char)) (hne : ls ≠ [])
    (hl : ∀ l ∈ ls, ∀ c ∈ l, (c == '\n') = false ∧ (c == '\r') = false) :
    splitRNL (joinNL ls) = ls := by
  unfold splitRNL
  rw [splitNL_joinNL ls hne (fun l h1 c h2 => (hl l h1 c h2).1)]
  exact mapButLast_id _ ls (fun l h1 => dropTrailCR_id l (fun c h2 => (hl l h1 c h2).2))

theorem dot_no_term (c : Char) (h : isDotC c = true) :
    (c == '\n') = false ∧ (c == '\r') = false := by
  unfold isDotC at h
  simp only [Bool.not_eq_eq_eq_not, Bool.not_true, Bool.or_eq_false_iff] at h
  exact h

theorem renderRow_noterm (r : RowSpec) (h2 : ∀ c ∈ r.rname, isDotC c = true)
    (h8 : ∀ c ∈ r.kind, isAsciiAlphaC c = true)
    (h10 : ∀ c ∈ r.localp, isDotC c = true) :
    ∀ c ∈ renderRow r, (c == '\n') = false ∧ (c == '\r') = false := by
  intro c hc
  unfold renderRow at hc
  rcases List.mem_append.mp hc with h | h
  · exact dot_no_term c (h2 c h)
  · simp only [List.mem_cons] at h
    rcases h with h | h | h
    · subst h; exact ⟨rfl, rfl⟩
    · subst h; exact ⟨rfl, rfl⟩
    · rcases List.mem_append.mp h with h | h
      · exact dot_no_term c (alpha_dot c (h8 c h))
      · simp only [List.mem_cons] at h
        rcases h with h | h | h
        · subst h; exact ⟨rfl, rfl⟩
        · subst h; exact ⟨rfl, rfl⟩
        · exact dot_no_term c (h10 c h)

theorem renderRow_nonul (r : RowSpec) (h3 : ∀ c ∈ r.rname, (c == '\x00') = false)
    (h8 : ∀ c ∈ r.kind, isAsciiAlphaC c = true)
    (h11 : ∀ c ∈ r.localp, (c == '\x00') = false) :
    ∀ c ∈ renderRow r, (c == '\x00') = false := by
  intro c hc
  unfold renderRow at hc
  rcases List.mem_append.mp hc with h | h
  · exact h3 c h
  · simp only [List.mem_cons] at h
    rcases h with h | h | h
    · subst h; rfl
    · subst h; rfl
    · rcases List.mem_append.mp h with h | h
      · exact alpha_not_nul c (h8 c h)
      · simp only [List.mem_cons] at h
        rcases h with h | h | h
        · subst h; rfl
        · subst h; rfl
        · exact h11 c h

theorem prepLine_id (l : List Char) (hnul : ∀ c ∈ l, (c == '\x00') = false)
    (hlast : ∀ c, l.getLast? = some c → isWsC c = false) :
    rtrimL (l.filter (fun c => !(c == '\x00'))) = l := by
  rw [List.filter_eq_self.mpr (fun a ha => by rw [hnul a ha]; rfl)]
  exact rtrimL_id l hlast

theorem renderRow_ne_nil (r : RowSpec) (h1 : r.rname ≠ []) : renderRow r ≠ [] := by
  unfold renderRow
  cases hn : r.rname with
  | nil => exact absurd hn h1
  | cons a b => simp

theorem map_prep_rows (rows : List RowSpec) (hok : ∀ r ∈ rows, RowOK r) :
    (rows.map renderRow).map (fun l => rtrimL (l.filter (fun c => !(c == '\x00')))) =
      rows.map renderRow := by
  induction rows with
  | nil => rfl
  | cons r rest ih =>
    rw [List.map_cons, List.map_cons, ih (fun x hx => hok x (by simp [hx]))]
    obtain ⟨h1, h2, h3, _, _, _, _, h8, h9, h10, h11, h12, _⟩ := hok r (by simp)
    rw [prepLine_id (renderRow r) (renderRow_nonul r h3 h8 h11) ?hlast]
    case hlast =>
      intro c hc
      obtain ⟨a, t, hsh, _⟩ := isDriveL_shape r.localp h9
      rw [renderRow_getLast? r (by rw [hsh]; simp)] at hc
      exact h12 c hc

theorem prepLines_table (rows : List RowSpec) (hok : ∀ r ∈ rows, RowOK r) :
    prepLines (renderTable rows) = headerRow :: dashRow :: rows.map renderRow := by
  have hterm : ∀ l ∈ headerRow :: dashRow :: rows.map renderRow,
      ∀ c ∈ l, (c == '\n') = false ∧ (c == '\r') = false := by
    intro l hl
    simp only [List.mem_cons] at hl
    rcases hl with h | h | h
    · subst h; decide
    · subst h; decide
    · obtain ⟨r, hr, hrl⟩ := List.mem_map.mp h
      obtain ⟨_, h2, _, _, _, _, _, h8, _, h10, _⟩ := hok r hr
      rw [← hrl]
      exact renderRow_noterm r h2 h8 h10
  unfold prepLines renderTable
  rw [splitRNL_joinNL _ (by simp) hterm]
  rw [List.map_cons, List.map_cons]
  rw [show rtrimL (headerRow.filter (fun c => !(c == '\x00'))) = headerRow from by decide]
  rw [show rtrimL (dashRow.filter (fun c => !(c == '\x00'))) = dashRow from by decide]
  rw [map_prep_rows rows hok]
  rw [List.filter_eq_self.mpr ?hne]
  case hne =>
    intro l hl
    simp only [List.mem_cons] at hl
    rcases hl with h | h | h
    · subst h; decide
    · subst h; decide
    · obtain ⟨r, hr, hrl⟩ := List.mem_map.mp h
      obtain ⟨h1, _⟩ := hok r hr
      rw [← hrl]
      cases hv : renderRow r with
      | nil => exact absurd hv (renderRow_ne_nil r h1)
      | cons a b => rfl

theorem ppStep_header (st : PPState) : ppStep st headerRow = st := by
  have e1 : isPrefixL "---".data (trimL headerRow) = false := by decide
  have e2 : headerLineTest (trimL headerRow) = true := by decide
  simp [ppStep, e1, e2]

theorem ppStep_dash (st : PPState) : ppStep st dashRow = st := by
  have e1 : isPrefixL "---".data (trimL dashRow) = true := by decide
  simp [ppStep, e1]

theorem altTry_spec (k : K) (cap : Option Nat) :
    ∀ (ws : List (List Char)) (prev : Option Char) (s : List Char) (caps : Caps),
      altTry k cap ws prev s = some caps →
      ∃ w ∈ ws, ∃ caps0, caps = addCap cap (s.take w.length) caps0 ∧
        isPrefixCI w s = true := by
  intro ws
  induction ws with
  | nil => intro prev s caps h; exact absurd h (by simp [altTry])
  | cons w ws ih =>
    intro prev s caps h
    simp only [altTry] at h
    by_cases hp : isPrefixCI w s = true
    · rw [if_pos hp] at h
      cases hk : (k (lastPrev (s.take w.length) prev) (s.drop w.length)).map
          (addCap cap (s.take w.length)) with
      | some caps1 =>
        rw [hk] at h
        rcases Option.map_eq_some'.mp hk with ⟨caps0, _, hc1⟩
        refine ⟨w, by simp, caps0, ?_, hp⟩
        have hceq : caps1 = caps := Option.some.inj h
        rw [← hceq, ← hc1]
      | none =>
        rw [hk] at h
        obtain ⟨w2, hw2, rest⟩ := ih prev s caps h
        exact ⟨w2, by simp [hw2], rest⟩
    · rw [if_neg hp] at h
      obtain ⟨w2, hw2, rest⟩ := ih prev s caps h
      exact ⟨w2, by simp [hw2], rest⟩

theorem actionWords_lower : ∀ w ∈ actionWords, toLowerL w = w := by decide

theorem searchK_actionFind (s : List Char) :
    ∀ (prev : Option Char) (caps : Caps), searchK actionFindK prev s = some caps →
      ∃ w ∈ actionWords, toLowerL (capGet caps 1) = w := by
  induction s with
  | nil =>
    intro prev caps h
    have hnone : actionFindK prev [] = none := by
      unfold actionFindK kBound
      by_cases hb : boundaryAt prev [] = true
      · rw [if_pos hb]
        simp [kAlt, altTry, actionWords, isPrefixCI, toLowerL, isPrefixL]
      · rw [if_neg hb]
    rw [searchK, hnone] at h
    exact absurd h (by simp)
  | cons c s1 ih =>
    intro prev caps h
    cases ha : actionFindK prev (c :: s1) with
    | some caps0 =>
      rw [searchK, ha] at h
      have hc : caps0 = caps := Option.some.inj h
      unfold actionFindK kBound at ha
      by_cases hb : boundaryAt prev (c :: s1) = true
      · rw [if_pos hb] at ha
        obtain ⟨w, hw, caps1, hcaps, hpre⟩ :=
          altTry_spec (kBound kEnd) (some 1) actionWords prev (c :: s1) caps0
            (by simpa [kAlt] using ha)
        have hcap : capGet caps0 1 = (c :: s1).take w.length := by
          rw [hcaps]; rfl
        refine ⟨w, hw, ?_⟩
        rw [← hc, hcap, prefixCI_take w (c :: s1) hpre]
        exact actionWords_lower w hw
      · rw [if_neg hb] at ha
        exact absurd ha (by simp)
    | none =>
      rw [searchK, ha] at h
      exact ih (some c) caps h

theorem rowItem_action_mem (r : RowSpec) :
    (rowItem r).action ∈ (["edit", "add", "delete", "rename", "merge", "branch"] : List String) := by
  unfold rowItem
  cases hs : searchK actionFindK none r.kind with
  | none =>
    simp only [hs]
    decide
  | some caps =>
    obtain ⟨w, hw, hlow⟩ := searchK_actionFind r.kind none caps hs
    simp only [hs]
    rw [hlow]
    fin_cases hw <;> decide

/-! ### Oversized-garbage-line lemmas -/

/-- A garbage status line of `n` hash marks: no whitespace, no columns,
matched by none of the row patterns. -/
def hashLine (n : Nat) : List Char := List.replicate n '#'

theorem mem_of_head? (l : List Char) (c : Char) (h : l.head? = some c) : c ∈ l := by
  cases l with
  | nil => exact absurd h (by simp)
  | cons a t =>
    rw [List.head?_cons, Option.some.injEq] at h
    exact h ▸ List.mem_cons_self a t

theorem isPrefixL_head_ne (a b : Char) (as bs : List Char) (h : (a == b) = false) :
    isPrefixL (a :: as) (b :: bs) = false := by
  rw [isPrefixL, h]
  rfl

theorem isPrefixCI_head_ne (a b : Char) (as bs : List Char)
    (h : (Char.toLower a == Char.toLower b) = false) :
    isPrefixCI (a :: as) (b :: bs) = false := by
  unfold isPrefixCI toLowerL
  rw [List.map_cons, List.map_cons]
  exact isPrefixL_head_ne _ _ _ _ h

theorem hasDblWsL_no_ws : ∀ (s : List Char), (∀ c ∈ s, isWsC c = false) →
    hasDblWsL s = false := by
  intro s
  induction s with
  | nil => intro _; rfl
  | cons c t ih =>
    intro h
    cases t with
    | nil => rfl
    | cons d r =>
      rw [hasDblWsL_cons2, h c (by simp), Bool.false_and, Bool.false_or]
      exact ih (fun x hx => h x (List.mem_cons_of_mem c hx))

theorem takeMin_decomp (cl : Char → Bool) :
    ∀ (m : Nat) (p : Option Char) (s pre : List Char) (p1 : Option Char) (s1 : List Char),
      takeMin cl m p s = some (pre, p1, s1) → pre ++ s1 = s := by
  intro m
  induction m with
  | zero =>
    intro p s pre p1 s1 h
    rw [takeMin_zero, Option.some.injEq] at h
    simp only [Prod.mk.injEq] at h
    obtain ⟨h1, _, h3⟩ := h
    rw [← h1, ← h3]
    rfl
  | succ m1 ih =>
    intro p s pre p1 s1 h
    cases s with
    | nil => rw [takeMin_succ_nil] at h; exact absurd h (by simp)
    | cons c t =>
      rw [takeMin_succ] at h
      by_cases hc : cl c = true
      · rw [if_pos hc] at h
        cases htm : takeMin cl m1 (some c) t with
        | none => rw [htm] at h; exact absurd h (by simp)
        | some trip =>
          obtain ⟨t2, p2, r2⟩ := trip
          rw [htm] at h
          simp only [Option.some.injEq, Prod.mk.injEq] at h
          obtain ⟨h1, _, h3⟩ := h
          have hdec := ih (some c) t t2 p2 r2 htm
          rw [← h1, ← h3, List.cons_append, hdec]
      · rw [if_neg hc] at h
        exact absurd h (by simp)

theorem P_of_append (P : List Char → Prop) (hstep : ∀ c s, P (c :: s) → P s) :
    ∀ (pre s1 : List Char), P (pre ++ s1) → P s1 := by
  intro pre
  induction pre with
  | nil => intro s1 h; exact h
  | cons c t ih => intro s1 h; exact ih s1 (hstep c (t ++ s1) h)

theorem kCls_lazy_some (cl : Char → Bool) (m : Nat) (cap : Option Nat) (k : K)
    (p p1 : Option Char) (s pre s1 : List Char)
    (htm : takeMin cl m p s = some (pre, p1, s1)) :
    kCls cl m true cap k p s =
      match clsLazy cl k p1 s1 with
      | some (t, caps) => some (addCap cap (pre ++ t) caps)
      | none => none := by
  unfold kCls
  rw [htm]
  rfl

/-- A lazy class repetition fails whenever its continuation fails on every
suffix of its input (suffix-closed invariant `P`). -/
theorem kClsLazy_none (cl : Char → Bool) (m : Nat) (cap : Option Nat) (k : K)
    (P : List Char → Prop) (hstep : ∀ c s, P (c :: s) → P s)
    (hk : ∀ p s, P s → k p s = none) (p : Option Char) (s : List Char) (hP : P s) :
    kCls cl m true cap k p s = none := by
  cases htm : takeMin cl m p s with
  | none => unfold kCls; rw [htm]
  | some trip =>
    obtain ⟨pre, p1, s1⟩ := trip
    have hP1 : P s1 := P_of_append P hstep pre s1
      (by rw [takeMin_decomp cl m p s pre p1 s1 htm]; exact hP)
    rw [kCls_lazy_some cl m cap k p p1 s pre s1 htm]
    rw [clsLazy_none cl k P hstep hk s1 p1 hP1]

theorem takeMin_ws_hash (m : Nat) (p : Option Char) (s : List Char)
    (hs : ∀ c ∈ s, c = '#') : takeMin isWsC (m + 1) p s = none := by
  cases s with
  | nil => exact takeMin_succ_nil _ _ _
  | cons c t =>
    rw [takeMin_succ, hs c (by simp)]
    rfl

theorem kClsWs_hash_none (m : Nat) (hm : 0 < m) (cap : Option Nat) (k : K) (p : Option Char)
    (s : List Char) (hs : ∀ c ∈ s, c = '#') :
    kCls isWsC m false cap k p s = none := by
  obtain ⟨m1, rfl⟩ : ∃ m1, m = m1 + 1 := ⟨m - 1, by omega⟩
  unfold kCls
  rw [takeMin_ws_hash m1 p s hs]

theorem t1K_hash (s : List Char) (hs : ∀ c ∈ s, c = '#') : t1K none s = none := by
  unfold t1K
  exact kClsLazy_none isDotC 1 (some 1) _
    (fun l => ∀ c ∈ l, c = '#')
    (fun c s2 h x hx => h x (List.mem_cons_of_mem c hx))
    (fun p s2 hP => kClsWs_hash_none 2 (by decide) none _ p s2 hP)
    none s hs

theorem t1bK_hash (s : List Char) (hs : ∀ c ∈ s, c = '#') : t1bK none s = none := by
  unfold t1bK
  exact kClsLazy_none isDotC 1 (some 1) _
    (fun l => ∀ c ∈ l, c = '#')
    (fun c s2 h x hx => h x (List.mem_cons_of_mem c hx))
    (fun p s2 hP => kClsWs_hash_none 1 (by decide) none _ p s2 hP)
    none s hs

theorem tryParseRow_hash (s : List Char) (hs : ∀ c ∈ s, c = '#') :
    tryParseRow none s = none := by
  have htrim : trimL s = s := trimL_id s
    (fun c hc => by rw [hs c (mem_of_head? s c hc)]; decide)
    (fun c hc => by rw [hs c (mem_of_getLast? s c hc)]; decide)
  simp only [tryParseRow]
  rw [htrim, t1K_hash s hs, t1bK_hash s hs]
  cases s with
  | nil => rfl
  | cons c t =>
    rw [hs c (by simp)]
    cases t with
    | nil => rfl
    | cons d r =>
      rw [hs d (by simp)]
      rfl

theorem extTest_hash (n : Nat) (hn : 0 < n) : extTest (hashLine n) = false := by
  obtain ⟨m, rfl⟩ : ∃ m, n = m + 1 := ⟨n - 1, by omega⟩
  have hrev : (hashLine (m + 1)).reverse = '#' :: hashLine m := by
    unfold hashLine
    rw [List.reverse_replicate, List.replicate_succ]
  simp only [extTest]
  rw [hrev]
  rw [show isPrefixL "...".data ('#' :: hashLine m) = false from
        isPrefixL_head_ne '.' '#' _ _ (by decide)]
  simp only [Bool.false_eq_true, if_false]
  rw [hrev]
  simp only [extWords, List.any_cons, List.any_nil]
  rw [show isPrefixCI ('.' :: "cs".data).reverse ('#' :: hashLine m) = false from
        isPrefixCI_head_ne 's' '#' _ _ (by decide),
      show isPrefixCI ('.' :: "asset".data).reverse ('#' :: hashLine m) = false from
        isPrefixCI_head_ne 't' '#' _ _ (by decide),
      show isPrefixCI ('.' :: "mat".data).reverse ('#' :: hashLine m) = false from
        isPrefixCI_head_ne 't' '#' _ _ (by decide),
      show isPrefixCI ('.' :: "png".data).reverse ('#' :: hashLine m) = false from
        isPrefixCI_head_ne 'g' '#' _ _ (by decide),
      show isPrefixCI ('.' :: "jpg".data).reverse ('#' :: hashLine m) = false from
        isPrefixCI_head_ne 'g' '#' _ _ (by decide),
      show isPrefixCI ('.' :: "prefab".data).reverse ('#' :: hashLine m) = false from
        isPrefixCI_head_ne 'b' '#' _ _ (by decide),
      show isPrefixCI ('.' :: "meta".data).reverse ('#' :: hashLine m) = false from
        isPrefixCI_head_ne 'a' '#' _ _ (by decide)]
  rfl

/-- The `parsePending` loop body on an oversized line with an empty
buffer: when every header/folder/fragment test fails and the line parses
as no row, the buffer accumulates the line, overflows the cap, and is
dropped with a console message. -/
theorem ppStep_skip_drop (st : PPState) (g : List Char)
    (htrim : trimL g = g)
    (hdash : isPrefixL "---".data g = false)
    (hhead : headerLineTest g = false)
    (hnop : noPendingTest g = false)
    (hcwu : colWsUserTest g = false)
    (hdol : isPrefixL "$/".data g = false)
    (hext : extTest g = false)
    (hdbl : hasDblWsL g = false)
    (htry : tryParseRow none g = none)
    (hlen : g.length > 500)
    (hfold : st.folder = none) (hbuf : st.buffer = []) (hfrag : st.frag = none) :
    ppStep st g =
      { st with buffer := [], frag := none,
                log := st.log ++ [dropLogMsg g] } := by
  simp only [ppStep]
  rw [htrim]
  simp only [hdash, hhead, hnop, hcwu, hdol, hext, hdbl, hfrag, hfold, hbuf, htry,
    Bool.false_and, Bool.not_false, Bool.true_and, Bool.false_eq_true, if_false,
    List.isEmpty_nil, if_true, ite_true, ite_false]
  rw [if_pos hlen]

/-- `ppStep_skip_drop` instantiated at an oversized garbage line of hash
marks. -/
theorem ppStep_hash (st : PPState) (n : Nat) (hn : 500 < n)
    (hfold : st.folder = none) (hbuf : st.buffer = []) (hfrag : st.frag = none) :
    ppStep st (hashLine n) =
      { st with buffer := [], frag := none,
                log := st.log ++ [dropLogMsg (hashLine n)] } := by
  obtain ⟨m, rfl⟩ : ∃ m, n = m + 501 := ⟨n - 501, by omega⟩
  have hs : ∀ c ∈ hashLine (m + 501), c = '#' := fun c h => List.eq_of_mem_replicate h
  have hrepl : hashLine (m + 501) = '#' :: hashLine (m + 500) := by
    unfold hashLine
    rw [show m + 501 = (m + 500) + 1 from rfl, List.replicate_succ]
  have htrim : trimL (hashLine (m + 501)) = hashLine (m + 501) := trimL_id _
    (fun c hc => by rw [hs c (mem_of_head? _ c hc)]; decide)
    (fun c hc => by rw [hs c (mem_of_getLast? _ c hc)]; decide)
  have hdash : isPrefixL "---".data (hashLine (m + 501)) = false := by rw [hrepl]; rfl
  have hhead : headerLineTest (hashLine (m + 501)) = false := by rw [hrepl]; rfl
  have hnop : noPendingTest (hashLine (m + 501)) = false := by rw [hrepl]; rfl
  have hcwu : colWsUserTest (hashLine (m + 501)) = false := by rw [hrepl]; rfl
  have hdol : isPrefixL "$/".data (hashLine (m + 501)) = false := by rw [hrepl]; rfl
  have hext : extTest (hashLine (m + 501)) = false := extTest_hash (m + 501) (by omega)
  have hdbl : hasDblWsL (hashLine (m + 501)) = false :=
    hasDblWsL_no_ws _ (fun c hc => by rw [hs c hc]; decide)
  have htry : tryParseRow none (hashLine (m + 501)) = none := tryParseRow_hash _ hs
  have hlen : (hashLine (m + 501)).length > 500 := by
    unfold hashLine
    rw [List.length_replicate]
    omega
  exact ppStep_skip_drop st (hashLine (m + 501)) htrim hdash hhead hnop hcwu hdol hext
    hdbl htry hlen hfold hbuf hfrag

theorem prepLines_hash (n : Nat) (hn : 0 < n) :
    prepLines (hashLine n) = [hashLine n] := by
  have hnl : ∀ c ∈ hashLine n, (c == '\n') = false := fun c h => by
    rw [List.eq_of_mem_replicate h]; decide
  have hnul : ∀ c ∈ hashLine n, (c == '\x00') = false := fun c h => by
    rw [List.eq_of_mem_replicate h]; decide
  have hlast : ∀ c, (hashLine n).getLast? = some c → isWsC c = false := fun c hc => by
    rw [List.eq_of_mem_replicate (mem_of_getLast? _ c hc)]; decide
  have hne : (hashLine n).isEmpty = false := by
    obtain ⟨m, rfl⟩ : ∃ m, n = m + 1 := ⟨n - 1, by omega⟩
    unfold hashLine
    rw [List.replicate_succ]
    rfl
  unfold prepLines splitRNL
  rw [splitNL_single _ hnl]
  rw [show mapButLast dropTrailCR [hashLine n] = [hashLine n] from rfl]
  simp only [List.map_cons, List.map_nil]
  rw [prepLine_id _ hnul hlast]
  simp [List.filter_cons, hne]

theorem prepLines_hash_row (n : Nat) (hn : 0 < n) :
    prepLines (hashLine n ++ '\n' :: "Foo.cs  edit  C:\\ws\\Foo.cs".data) =
      [hashLine n, "Foo.cs  edit  C:\\ws\\Foo.cs".data] := by
  have hnl : ∀ c ∈ hashLine n, (c == '\n') = false := fun c h => by
    rw [List.eq_of_mem_replicate h]; decide
  have hcr : ∀ c ∈ hashLine n, (c == '\r') = false := fun c h => by
    rw [List.eq_of_mem_replicate h]; decide
  have hnul : ∀ c ∈ hashLine n, (c == '\x00') = false := fun c h => by
    rw [List.eq_of_mem_replicate h]; decide
  have hlast : ∀ c, (hashLine n).getLast? = some c → isWsC c = false := fun c hc => by
    rw [List.eq_of_mem_replicate (mem_of_getLast? _ c hc)]; decide
  have hne : (hashLine n).isEmpty = false := by
    obtain ⟨m, rfl⟩ : ∃ m, n = m + 1 := ⟨n - 1, by omega⟩
    unfold hashLine
    rw [List.replicate_succ]
    rfl
  have hne2 : (("Foo.cs  edit  C:\\ws\\Foo.cs".data : List Char)).isEmpty = false := rfl
  unfold prepLines splitRNL
  rw [splitNL_line _ hnl, splitNL_single _ (by decide)]
  rw [show mapButLast dropTrailCR (hashLine n :: ["Foo.cs  edit  C:\\ws\\Foo.cs".data]) =
        dropTrailCR (hashLine n) :: ["Foo.cs  edit  C:\\ws\\Foo.cs".data] from rfl]
  rw [dropTrailCR_id _ hcr]
  simp only [List.map_cons, List.map_nil]
  rw [prepLine_id _ hnul hlast]
  rw [show rtrimL (("Foo.cs  edit  C:\\ws\\Foo.cs".data : List Char).filter
        (fun c => !(c == '\x00'))) = "Foo.cs  edit  C:\\ws\\Foo.cs".data from by decide]
  simp [List.filter_cons, hne, hne2]

/-! ## Claim C7 -/

/-- Claim C7: an unparseable garbage line longer than the 500-character
buffer cap yields no pending-change record, the accumulated buffer is
discarded (left empty) with the oversized-buffer console message, the
parser terminates normally, and a well-formed row after the garbage line
is still parsed. -/
theorem parsePending_oversized_buffer (n : Nat) (hn : 500 < n) :
    parsePending (String.mk (hashLine n)) = [] ∧
    (ppRunFrom [] (String.mk (hashLine n))).buffer = [] ∧
    (ppRunFrom [] (String.mk (hashLine n))).log = [dropLogMsg (hashLine n)] ∧
    parsePending (String.mk (hashLine n ++ '\n' :: "Foo.cs  edit  C:\\ws\\Foo.cs".data)) =
      [⟨"C:\\ws\\Foo.cs", "edit"⟩] := by
  have hrun : ppRunFrom [] (String.mk (hashLine n)) =
      { items := [], folder := none, buffer := [], frag := none,
        log := [dropLogMsg (hashLine n)] } := by
    unfold ppRunFrom
    rw [show (String.mk (hashLine n)).data = hashLine n from rfl]
    rw [prepLines_hash n (by omega)]
    rw [List.foldl_cons, List.foldl_nil]
    rw [ppStep_hash (ppInit []) n hn rfl rfl rfl]
    rfl
  refine ⟨?_, ?_, ?_, ?_⟩
  · unfold parsePending
    rw [hrun]
  · rw [hrun]
  · rw [hrun]
  · unfold parsePending ppRunFrom
    rw [show (String.mk (hashLine n ++ '\n' :: "Foo.cs  edit  C:\\ws\\Foo.cs".data)).data =
          hashLine n ++ '\n' :: "Foo.cs  edit  C:\\ws\\Foo.cs".data from rfl]
    rw [prepLines_hash_row n (by omega)]
    rw [show ([hashLine n, "Foo.cs  edit  C:\\ws\\Foo.cs".data] : List (List Char)) =
          [hashLine n, renderRow ⟨"Foo.cs".data, "edit".data, "C:\\ws\\Foo.cs".data⟩] from rfl]
    rw [List.foldl_cons, ppStep_hash (ppInit []) n hn rfl rfl rfl]
    rw [List.foldl_cons, List.foldl_nil]
    rw [ppStep_row _ ⟨"Foo.cs".data, "edit".data, "C:\\ws\\Foo.cs".data⟩ (by decide) rfl]
    rfl

theorem parsePending_oversized_buffer_witness :
    500 < 501 ∧
    (parsePending (String.mk (hashLine 501)) = [] ∧
     (ppRunFrom [] (String.mk (hashLine 501))).buffer = [] ∧
     (ppRunFrom [] (String.mk (hashLine 501))).log = [dropLogMsg (hashLine 501)] ∧
     parsePending (String.mk (hashLine 501 ++ '\n' :: "Foo.cs  edit  C:\\ws\\Foo.cs".data)) =
       [⟨"C:\\ws\\Foo.cs", "edit"⟩]) :=
  ⟨by decide, parsePending_oversized_buffer 501 (by decide)⟩

/-! ## Claim C1 -/

/-- Claim C1, counterexample: a well-formed compact row whose change
column is `branch` parses to a record with action `"branch"`, which is
outside the claimed vocabulary {edit, add, delete, rename, merge,
unknown}. -/
theorem parsePending_branch_action_cx :
    (parsePending "A.cs  branch  C:\\ws\\A.cs").map (fun it => it.action) = ["branch"] ∧
    "branch" ∉ (["edit", "add", "delete", "rename", "merge", "unknown"] : List String) := by
  constructor
  · decide
  · decide

/-- Claim C1 (amended): for a well-formed compact status table the
parser yields exactly one record per non-header data row, carrying the
local path column, and every produced action is drawn from {edit, add,
delete, rename, merge, branch}; when the change column matches none of
these words the action defaults to `"edit"` (never `"unknown"`). -/
theorem parsePending_wellFormedTable (rows : List RowSpec)
    (hok : ∀ r ∈ rows, RowOK r) :
    parsePending (String.mk (renderTable rows)) = rows.map rowItem ∧
    ∀ it ∈ rows.map rowItem,
      it.action ∈ (["edit", "add", "delete", "rename", "merge", "branch"] : List String) := by
  constructor
  · unfold parsePending ppRunFrom
    rw [show (String.mk (renderTable rows)).data = renderTable rows from rfl]
    rw [prepLines_table rows hok]
    rw [List.foldl_cons, ppStep_header (ppInit []), List.foldl_cons, ppStep_dash (ppInit [])]
    have := foldl_ppStep_rows rows (ppInit []) hok rfl
    rw [this]
    rfl
  · intro it hit
    obtain ⟨r, hr, hrit⟩ := List.mem_map.mp hit
    rw [← hrit]
    exact rowItem_action_mem r

theorem parsePending_wellFormedTable_witness :
    (∀ r ∈ ([⟨"Foo.cs".data, "edit".data, "C:\\ws\\Foo.cs".data⟩,
             ⟨"Bar.cs".data, "checkout".data, "C:\\ws\\Bar.cs".data⟩] : List RowSpec), RowOK r) ∧
    parsePending (String.mk (renderTable
        [⟨"Foo.cs".data, "edit".data, "C:\\ws\\Foo.cs".data⟩,
         ⟨"Bar.cs".data, "checkout".data, "C:\\ws\\Bar.cs".data⟩])) =
      ([⟨"Foo.cs".data, "edit".data, "C:\\ws\\Foo.cs".data⟩,
        ⟨"Bar.cs".data, "checkout".data, "C:\\ws\\Bar.cs".data⟩] : List RowSpec).map rowItem :=
  ⟨by decide,
    (parsePending_wellFormedTable
      [⟨"Foo.cs".data, "edit".data, "C:\\ws\\Foo.cs".data⟩,
       ⟨"Bar.cs".data, "checkout".data, "C:\\ws\\Bar.cs".data⟩] (by decide)).1⟩

/-! ## Claim C6 -/

/-- Claim C6, counterexample: the normalizer strips only one `;C<n>`
qualifier, so for a server path that itself ends in a changeset suffix,
appending another suffix does not normalize to the same local path. -/
theorem toLocalPath_changeset_suffix_cx :
    toLocalPath "C:\\ws" none "$/A;C1;C2" ≠ toLocalPath "C:\\ws" none "$/A;C1" := by
  decide

/-- Claim C6 (amended): for every server path `p` that does not itself
end in a changeset suffix, `toLocalPath (p ++ ";C" ++ n) = toLocalPath p`. -/
theorem toLocalPath_changeset_suffix (cwd : String) (config : Option VstfsConfig)
    (p : String) (n : Nat) (hp : stripChangesetSuffix p.data = p.data) :
    toLocalPath cwd config (String.mk (p.data ++ ';' :: 'C' :: natDigits n)) =
      toLocalPath cwd config p := by
  unfold toLocalPath
  have h1 : (String.mk (p.data ++ ';' :: 'C' :: natDigits n)).data =
      p.data ++ ';' :: 'C' :: natDigits n := rfl
  rw [h1, stripChangesetSuffix_append_digits p.data (natDigits n) (natDigits_ne_nil n)
    (natDigits_all_digits n), hp]

theorem toLocalPath_changeset_suffix_witness :
    stripChangesetSuffix "$/Proj/File.cs".data = "$/Proj/File.cs".data ∧
    toLocalPath "C:\\ws" none (String.mk ("$/Proj/File.cs".data ++ ';' :: 'C' :: natDigits 42)) =
      toLocalPath "C:\\ws" none "$/Proj/File.cs" :=
  ⟨by decide, toLocalPath_changeset_suffix "C:\\ws" none "$/Proj/File.cs" 42 (by decide)⟩

/-! ## Claim C9 -/

theorem isDriveL_append (x y : List Char) (h : isDriveL x = true) :
    isDriveL (x ++ y) = true := by
  match x with
  | a :: b :: c :: t => simpa [isDriveL] using h

theorem isAsciiAlpha_ne_slash (a : Char) (h : isAsciiAlphaC a = true) :
    (a == '/') = false := by
  by_contra hne
  have : a = '/' := by
    cases hb : a == '/' with
    | false => exact absurd hb hne
    | true => exact beq_iff_eq.mp hb
  subst this
  exact absurd h (by decide)

theorem fwdToBack_drive (l : List Char) (h : isDriveL l = true) :
    isDriveL (fwdToBack l) = true := by
  match l with
  | a :: b :: c :: t =>
    simp only [isDriveL, Bool.and_eq_true, beq_iff_eq] at h
    obtain ⟨⟨ha, hb⟩, hc⟩ := h
    subst hb; subst hc
    have h1 : (if a == '/' then '\\' else a) = a := by
      rw [isAsciiAlpha_ne_slash a ha]; rfl
    have hmap : fwdToBack (a :: ':' :: '\\' :: t) = a :: ':' :: '\\' :: fwdToBack t := by
      simp only [fwdToBack, List.map_cons]
      rw [h1]
      simp
    rw [hmap]
    simp [isDriveL, ha]

theorem slashToBack_drive_cons (a : Char) (t : List Char) (ha : isAsciiAlphaC a = true) :
    slashToBack (a :: ':' :: '\\' :: t) = a :: ':' :: '\\' :: slashToBack t := by
  simp only [slashToBack, List.map_cons]
  rw [show (if a == '/' then '\\' else a) = a by rw [isAsciiAlpha_ne_slash a ha]; rfl]
  rfl

theorem normalizeWin_drive (x : List Char) (h : isDriveL x = true) :
    isDriveL (normalizeWin x) = true := by
  match x with
  | a :: b :: c :: t =>
    simp only [isDriveL, Bool.and_eq_true, beq_iff_eq] at h
    obtain ⟨⟨ha, hb⟩, hc⟩ := h
    subst hb; subst hc
    unfold normalizeWin
    rw [slashToBack_drive_cons a t ha]
    simp [ha, isDriveL]

theorem pathJoinL_drive (a b : List Char) (h : isDriveL a = true) :
    isDriveL (pathJoinL a b) = true := by
  have hane : a.isEmpty = false := by
    match a with
    | x :: y :: z :: t => rfl
  unfold pathJoinL
  rw [hane]
  simp only [Bool.false_and, Bool.false_eq_true, if_false]
  by_cases hb : b.isEmpty
  · rw [hb]
    simp only [if_true]
    exact normalizeWin_drive a h
  · rw [Bool.eq_false_iff.mpr hb]
    simp only [Bool.false_eq_true, if_false]
    exact normalizeWin_drive _ (isDriveL_append a ('\\' :: b) h)

theorem toLocalPath_isDriveL (cwd : String) (config : Option VstfsConfig) (p : String)
    (hcwd : isDriveL cwd.data = true) :
    isDriveL (toLocalPath cwd config p).data = true := by
  cases config with
  | none =>
    simp only [toLocalPath]
    split
    · rename_i hdr; exact hdr
    · split
      · exact fwdToBack_drive _ (pathJoinL_drive _ _ hcwd)
      · split
        · exact fwdToBack_drive _ (pathJoinL_drive _ _ hcwd)
        · exact fwdToBack_drive _ (pathJoinL_drive _ _ hcwd)
  | some cfg =>
    simp only [toLocalPath]
    split
    · rename_i hdr; exact hdr
    · split
      · exact fwdToBack_drive _ (pathJoinL_drive _ _ hcwd)
      · split
        · exact fwdToBack_drive _ (pathJoinL_drive _ _ hcwd)
        · exact fwdToBack_drive _ (pathJoinL_drive _ _ hcwd)

/-- Claim C9, counterexample: an input carrying two changeset suffixes
normalizes to an output still carrying one, which a second application
strips again, so `toLocalPath` is not idempotent on every input. -/
theorem toLocalPath_idempotent_cx :
    toLocalPath "C:\\ws" none (toLocalPath "C:\\ws" none "$/x;C5;C6") ≠
      toLocalPath "C:\\ws" none "$/x;C5;C6" := by
  decide

/-- Claim C9 (amended): with a drive-letter working directory every
output of `toLocalPath` is a drive-letter absolute path, and the
normalizer is idempotent on every input whose output does not end in a
changeset suffix (the "already local" branch returns it unchanged). -/
theorem toLocalPath_idempotent (cwd : String) (config : Option VstfsConfig) (p : String)
    (hcwd : isDriveL cwd.data = true)
    (hout : stripChangesetSuffix (toLocalPath cwd config p).data =
      (toLocalPath cwd config p).data) :
    toLocalPath cwd config (toLocalPath cwd config p) = toLocalPath cwd config p ∧
    isDriveL (toLocalPath cwd config p).data = true := by
  have hd := toLocalPath_isDriveL cwd config p hcwd
  refine ⟨?_, hd⟩
  set q := toLocalPath cwd config p with hq
  conv_lhs => unfold toLocalPath
  rw [hout]
  simp only [hd, if_true]

theorem toLocalPath_idempotent_witness :
    isDriveL "C:\\ws".data = true ∧
    stripChangesetSuffix (toLocalPath "C:\\ws" none "$/Proj/A.cs").data =
      (toLocalPath "C:\\ws" none "$/Proj/A.cs").data ∧
    toLocalPath "C:\\ws" none (toLocalPath "C:\\ws" none "$/Proj/A.cs") =
      toLocalPath "C:\\ws" none "$/Proj/A.cs" :=
  ⟨by decide, by decide, (toLocalPath_idempotent "C:\\ws" none "$/Proj/A.cs"
    (by decide) (by decide)).1⟩

/-! ## Claim C3 -/

/-- Claim C3: a first attempt failing with an authentication-failure
signature, with a server URL configured, leads to exactly one sign-in
and one retry whose result is returned; no run of the executor ever
invokes the command more than twice. -/
theorem execWithAuthRetry_single_retry
    (config : Option VstfsConfig) (exec : Nat → Except String String)
    (msg out : String)
    (h0 : exec 0 = Except.error msg) (hauth : isAuthError msg = true)
    (hurl : serverUrlSet config = true) (h1 : exec 1 = Except.ok out) :
    execWithAuthRetry config exec = ⟨Except.ok out, 2, 1⟩ ∧
    ∀ e2 : Nat → Except String String, (execWithAuthRetry config e2).execCalls ≤ 2 := by
  constructor
  · simp [execWithAuthRetry, h0, hauth, hurl, h1]
  · intro e2
    rcases he : e2 0 with m | o
    case ok => simp [execWithAuthRetry, he]
    · have hval : execWithAuthRetry config e2 =
          if isAuthError m && serverUrlSet config then ⟨e2 1, 2, 1⟩
          else ⟨Except.error m, 1, 0⟩ := by
        unfold execWithAuthRetry
        rw [he]
      rw [hval]
      by_cases hc : (isAuthError m && serverUrlSet config) = true
      · rw [if_pos hc]
      · rw [if_neg hc]
        exact Nat.le_succ 1

theorem execWithAuthRetry_single_retry_witness :
    (fun n => if n == 0 then Except.error "TF30063: not authorized" else Except.ok "output") 0 =
      Except.error "TF30063: not authorized" ∧
    isAuthError "TF30063: not authorized" = true ∧
    serverUrlSet (some ⟨"http://tfs:8080/tfs", "", "", "", "", ""⟩) = true ∧
    execWithAuthRetry (some ⟨"http://tfs:8080/tfs", "", "", "", "", ""⟩)
      (fun n => if n == 0 then Except.error "TF30063: not authorized" else Except.ok "output") =
      ⟨Except.ok "output", 2, 1⟩ :=
  ⟨rfl, by decide, by decide,
    (execWithAuthRetry_single_retry _ _ _ _ rfl (by decide) (by decide) rfl).1⟩

/-! ## Claim C10 -/

/-- Claim C10: with no configured server URL (absent config or empty
string), an authentication-failure first attempt performs no sign-in and
no retry; the original error propagates unchanged. -/
theorem execWithAuthRetry_no_serverUrl
    (config : Option VstfsConfig) (exec : Nat → Except String String) (msg : String)
    (h0 : exec 0 = Except.error msg) (hauth : isAuthError msg = true)
    (hurl : serverUrlSet config = false) :
    execWithAuthRetry config exec = ⟨Except.error msg, 1, 0⟩ := by
  simp [execWithAuthRetry, h0, hurl]

theorem execWithAuthRetry_no_serverUrl_witness :
    (fun n => if n == 0 then Except.error "401 unauthorized" else Except.ok "late") 0 =
      Except.error "401 unauthorized" ∧
    isAuthError "401 unauthorized" = true ∧
    serverUrlSet none = false ∧
    execWithAuthRetry none
      (fun n => if n == 0 then Except.error "401 unauthorized" else Except.ok "late") =
      ⟨Except.error "401 unauthorized", 1, 0⟩ :=
  ⟨rfl, by decide, rfl,
    execWithAuthRetry_no_serverUrl none _ _ rfl (by decide) rfl⟩

/-! ## Claim C2 -/

/-- Claim C2, counterexample: when the history output parses to entries
none of which carry the requested id, `changeset` returns the first
parsed entry, whose `changesetId` differs from the requested one. -/
theorem changeset_wrong_id_cx :
    (changeset 7 "Changeset: 5\nUser: a\nDate: d\nComment: c\nItems:\n").map
      (fun h => h.changesetId) = some 5 ∧ (5 : Nat) ≠ 7 := by
  constructor
  · decide
  · decide

/-- Claim C2 (amended): `changeset` is total; it returns `none` exactly
when nothing parses, otherwise some parsed entry: whenever any parsed
entry carries the requested id, the returned entry does; and when no
parsed entry matches, it falls back to the FIRST parsed entry
(`items[0]`), which may carry a different id. -/
theorem changeset_lookup_spec (id : Nat) (stdout : String) :
    (changeset id stdout = none ↔ parseHistory stdout = []) ∧
    ∀ h, changeset id stdout = some h →
      h ∈ parseHistory stdout ∧
      ((∃ h2 ∈ parseHistory stdout, h2.changesetId = id) → h.changesetId = id) ∧
      ((∀ h2 ∈ parseHistory stdout, h2.changesetId ≠ id) →
        (parseHistory stdout).head? = some h) := by
  cases hf : (parseHistory stdout).find? (fun h => h.changesetId == id) with
  | none =>
    rw [show changeset id stdout = (parseHistory stdout).head? by
      simp only [changeset]; rw [hf]]
    constructor
    · exact List.head?_eq_none_iff
    · intro h hh
      refine ⟨List.mem_of_mem_head? (by rw [hh]; rfl), ?_, fun _ => hh⟩
      rintro ⟨h2, hmem, hid⟩
      have hnone := List.find?_eq_none.mp hf h2 hmem
      rw [hid] at hnone
      simp at hnone
  | some hfound =>
    rw [show changeset id stdout = some hfound by
      simp only [changeset]; rw [hf]]
    constructor
    · constructor
      · intro hn; exact absurd hn (by simp)
      · intro hnil
        rw [hnil] at hf
        simp at hf
    · intro h hh
      have heq : hfound = h := Option.some.inj hh
      subst heq
      have hp := List.find?_some hf
      have hmem := List.mem_of_find?_eq_some hf
      refine ⟨hmem, fun _ => by simpa using hp, ?_⟩
      intro hall
      exact absurd (by simpa using hp) (hall hfound hmem)

theorem changeset_lookup_spec_witness :
    (changeset 3 "Changeset: 3\nUser: b\nDate: d\nComment: x\nItems:\n" = none ↔
      parseHistory "Changeset: 3\nUser: b\nDate: d\nComment: x\nItems:\n" = []) ∧
    ∀ h, changeset 3 "Changeset: 3\nUser: b\nDate: d\nComment: x\nItems:\n" = some h →
      h ∈ parseHistory "Changeset: 3\nUser: b\nDate: d\nComment: x\nItems:\n" ∧
      ((∃ h2 ∈ parseHistory "Changeset: 3\nUser: b\nDate: d\nComment: x\nItems:\n",
        h2.changesetId = 3) → h.changesetId = 3) ∧
      ((∀ h2 ∈ parseHistory "Changeset: 3\nUser: b\nDate: d\nComment: x\nItems:\n",
        h2.changesetId ≠ 3) →
        (parseHistory "Changeset: 3\nUser: b\nDate: d\nComment: x\nItems:\n").head? = some h) :=
  changeset_lookup_spec 3 "Changeset: 3\nUser: b\nDate: d\nComment: x\nItems:\n"

/-! ## Claim C5 -/

/-- Claim C5: `pendingChanges` tries detailed, then brief, then
brief-with-workspace, then brief-with-collection, returning the first
non-empty parsed result; the collection variant's parse is returned as
is, and if every variant errors the result is the empty list. -/
theorem pendingChanges_fallback_policy (cwd : String) (config : Option VstfsConfig)
    (r0 r1 r2 r3 : Except String String) :
    (∀ out0, r0 = Except.ok out0 → applyLocal cwd config (parsePendingDetailed out0) ≠ [] →
      pendingChanges cwd config r0 r1 r2 r3 = applyLocal cwd config (parsePendingDetailed out0)) ∧
    (∀ out1, (∀ out0, r0 = Except.ok out0 → applyLocal cwd config (parsePendingDetailed out0) = []) →
      r1 = Except.ok out1 → applyLocal cwd config (parsePending out1) ≠ [] →
      pendingChanges cwd config r0 r1 r2 r3 = applyLocal cwd config (parsePending out1)) ∧
    (∀ out2, (∀ out0, r0 = Except.ok out0 → applyLocal cwd config (parsePendingDetailed out0) = []) →
      (∀ out1, r1 = Except.ok out1 → applyLocal cwd config (parsePending out1) = []) →
      r2 = Except.ok out2 → applyLocal cwd config (parsePending out2) ≠ [] →
      pendingChanges cwd config r0 r1 r2 r3 = applyLocal cwd config (parsePending out2)) ∧
    (∀ out3, (∀ out0, r0 = Except.ok out0 → applyLocal cwd config (parsePendingDetailed out0) = []) →
      (∀ out1, r1 = Except.ok out1 → applyLocal cwd config (parsePending out1) = []) →
      (∀ out2, r2 = Except.ok out2 → applyLocal cwd config (parsePending out2) = []) →
      r3 = Except.ok out3 →
      pendingChanges cwd config r0 r1 r2 r3 = applyLocal cwd config (parsePending out3)) ∧
    ((∃ e, r0 = Except.error e) → (∃ e, r1 = Except.error e) → (∃ e, r2 = Except.error e) →
      (∃ e, r3 = Except.error e) → pendingChanges cwd config r0 r1 r2 r3 = []) := by
  refine ⟨?_, ?_, ?_, ?_, ?_⟩
  · intro out0 h0 hne
    subst h0
    simp [pendingChanges, List.isEmpty_iff, hne]
  · intro out1 h0 h1 hne
    subst h1
    cases r0 with
    | ok o =>
      have := h0 o rfl
      simp [pendingChanges, List.isEmpty_iff, this, hne]
    | error e =>
      simp [pendingChanges, List.isEmpty_iff, hne]
  · intro out2 h0 h1 h2 hne
    subst h2
    cases r0 with
    | ok o =>
      have hh0 := h0 o rfl
      cases r1 with
      | ok o1 =>
        have hh1 := h1 o1 rfl
        simp [pendingChanges, List.isEmpty_iff, hh0, hh1, hne]
      | error e1 =>
        simp [pendingChanges, List.isEmpty_iff, hh0, hne]
    | error e =>
      cases r1 with
      | ok o1 =>
        have hh1 := h1 o1 rfl
        simp [pendingChanges, List.isEmpty_iff, hh1, hne]
      | error e1 =>
        simp [pendingChanges, List.isEmpty_iff, hne]
  · intro out3 h0 h1 h2 h3
    subst h3
    cases r0 with
    | ok o =>
      have hh0 := h0 o rfl
      cases r1 with
      | ok o1 =>
        have hh1 := h1 o1 rfl
        cases r2 with
        | ok o2 =>
          have hh2 := h2 o2 rfl
          simp [pendingChanges, List.isEmpty_iff, hh0, hh1, hh2]
        | error e2 =>
          simp [pendingChanges, List.isEmpty_iff, hh0, hh1]
      | error e1 =>
        cases r2 with
        | ok o2 =>
          have hh2 := h2 o2 rfl
          simp [pendingChanges, List.isEmpty_iff, hh0, hh2]
        | error e2 =>
          simp [pendingChanges, List.isEmpty_iff, hh0]
    | error e =>
      cases r1 with
      | ok o1 =>
        have hh1 := h1 o1 rfl
        cases r2 with
        | ok o2 =>
          have hh2 := h2 o2 rfl
          simp [pendingChanges, List.isEmpty_iff, hh1, hh2]
        | error e2 =>
          simp [pendingChanges, List.isEmpty_iff, hh1]
      | error e1 =>
        cases r2 with
        | ok o2 =>
          have hh2 := h2 o2 rfl
          simp [pendingChanges, List.isEmpty_iff, hh2]
        | error e2 =>
          simp [pendingChanges, List.isEmpty_iff]
  · rintro ⟨e0, h0⟩ ⟨e1, h1⟩ ⟨e2, h2⟩ ⟨e3, h3⟩
    subst h0; subst h1; subst h2; subst h3
    simp [pendingChanges]

/-! ## Claim C4 -/

theorem historyOfBlocks_map (bs : List (List Char)) :
    (historyOfBlocks bs).map (fun h => h.changesetId) = bs.filterMap blockId := by
  induction bs with
  | nil => rfl
  | cons b bs ih =>
    unfold historyOfBlocks
    cases hb : blockId b with
    | none => simp [List.filterMap_cons, hb, ih]
    | some n => simp [List.filterMap_cons, hb, ih, blockItem]

theorem historyOfBlocks_length (bs : List (List Char)) :
    (historyOfBlocks bs).length = (bs.filter (fun b => (blockId b).isSome)).length := by
  induction bs with
  | nil => rfl
  | cons b bs ih =>
    unfold historyOfBlocks
    cases hb : blockId b with
    | none => simp [List.filter_cons, hb, ih]
    | some n => simp [List.filter_cons, hb, ih]

/-- Claim C4: `parseHistory` yields exactly one entry per dash-separated
block in which `/^\s*Changeset:\s*(\d+)/mi` finds a number (its `\s*`
may cross a line break, so the digits can sit on the line after the
`Changeset:` label), in order, with `changesetId` equal to that number;
blocks in which the pattern finds nothing produce no entry (and no
error, the function being total). -/
theorem parseHistory_one_entry_per_changeset_block (stdout : String) :
    (parseHistory stdout).map (fun h => h.changesetId) = (blocksOf stdout).filterMap blockId ∧
    (parseHistory stdout).length =
      ((blocksOf stdout).filter (fun b => (blockId b).isSome)).length :=
  ⟨historyOfBlocks_map (blocksOf stdout), historyOfBlocks_length (blocksOf stdout)⟩

/-! ## Claim C8 -/

theorem ppStep_log_shift (st : PPState) (w : List String) (raw : List Char) :
    ppStep { st with log := w ++ st.log } raw =
      { ppStep st raw with log := w ++ (ppStep st raw).log } := by
  simp only [ppStep]
  repeat' split <;> try rfl
  all_goals simp [List.append_assoc]

theorem foldl_ppStep_log_shift (lines : List (List Char)) :
    ∀ (st : PPState) (w : List String),
      lines.foldl ppStep { st with log := w ++ st.log } =
        { lines.foldl ppStep st with log := w ++ (lines.foldl ppStep st).log } := by
  induction lines with
  | nil => intro st w; rfl
  | cons l ls ih =>
    intro st w
    rw [List.foldl_cons, List.foldl_cons, ppStep_log_shift, ih]

/-- Claim C8, counterexample: the parsers are not literally
side-effect-free — on an oversized garbage line, `parsePending` writes
the drop message to the console, so on a reachable input, program state
outside the return value (the console stream) is modified. -/
theorem parsePending_console_write_cx :
    (ppRunFrom [] (String.mk (hashLine 501))).log = [dropLogMsg (hashLine 501)] ∧
    [dropLogMsg (hashLine 501)] ≠ ([] : List String) := by
  constructor
  · unfold ppRunFrom
    rw [show (String.mk (hashLine 501)).data = hashLine 501 from rfl]
    rw [prepLines_hash 501 (by decide)]
    rw [List.foldl_cons, List.foldl_nil]
    rw [ppStep_hash (ppInit []) 501 (by decide) rfl rfl rfl]
    rfl
  · simp

/-- Claim C8 (amended): each of the three parsers is a deterministic
function of its input string, and its effects are limited to appending
console messages that are themselves a function of the input alone.  Run
against an arbitrary ambient console stream `w`, the parsed items are
the same as in the empty world, and the only world change is
`parsePending`'s append-only overflow log; `parsePendingDetailed` and
`parseHistory` leave the world untouched. -/
theorem parsers_deterministic_pure (stdout : String) (w : List String) :
    (ppRunFrom w stdout).items = parsePending stdout ∧
    (ppRunFrom w stdout).log = w ++ (ppRunFrom [] stdout).log ∧
    (parsePendingDetailedRun w stdout).1 = parsePendingDetailed stdout ∧
    (parsePendingDetailedRun w stdout).2 = w ∧
    (parseHistoryRun w stdout).1 = parseHistory stdout ∧
    (parseHistoryRun w stdout).2 = w := by
  have hinit : ppInit w = { ppInit ([] : List String) with log := w ++ (ppInit []).log } := by
    simp [ppInit]
  have hrun : ppRunFrom w stdout =
      { ppRunFrom [] stdout with log := w ++ (ppRunFrom [] stdout).log } := by
    unfold ppRunFrom
    rw [hinit, foldl_ppStep_log_shift]
  refine ⟨?_, ?_, rfl, rfl, rfl, rfl⟩
  · rw [hrun]; rfl
  · rw [hrun]

theorem pendingChanges_fallback_policy_witness :
    pendingChanges "C:\\ws" none
      (Except.error "boom") (Except.error "boom") (Except.error "boom") (Except.error "boom") = [] ∧
    pendingChanges "C:\\ws" none
      (Except.error "boom") (Except.ok "X.cs  edit  C:\\ws\\X.cs")
      (Except.error "boom") (Except.error "boom") =
      applyLocal "C:\\ws" none (parsePending "X.cs  edit  C:\\ws\\X.cs") :=
  ⟨(pendingChanges_fallback_policy "C:\\ws" none _ _ _ _).2.2.2.2
      ⟨"boom", rfl⟩ ⟨"boom", rfl⟩ ⟨"boom", rfl⟩ ⟨"boom", rfl⟩,
    (pendingChanges_fallback_policy "C:\\ws" none _ _ _ _).2.1
      "X.cs  edit  C:\\ws\\X.cs" (fun _ h => Except.noConfusion h) rfl (by decide)⟩

end VSTFS
